import Mathlib

set_option maxRecDepth 4000

/-!
# Verification of the schema extension engine (`src/utilities/extendSchema.ts`)

Shallow embedding of `extendSchemaImpl` and its helpers.  Modelling choices:

* JS plain objects used as maps (`Object.create(null)` + key assignment) are
  embedded as association lists with JS semantics: assignment to an existing
  key keeps its position and replaces the value, a new key is appended
  (`aset`); object spread `{...a, ...b}` folds the entries of `b` into `a`
  (`aunion`); `Object.values` is `avalues`.
* Named type references are represented by name.  The per-call registry breaks
  reference cycles by name lookup, so the observable content of a resolved
  reference is its name; `replaceNamedType` (which returns `typeMap[name]`
  unchecked) is the identity on names, while `getNamedType` (which consults
  the builtin map, then the registry, and throws otherwise) becomes a
  membership check.
* The deferred, memoized field/interface/member thunks are evaluated to their
  forced values: the thunks close over the fully seeded registry, whose
  resolution needs only the registry's key set, so the embedding seeds the
  registry first (`seedTypeMap`) and then forces every entry
  (`forceSeeds`).  Errors thrown while forcing surface as `Except.error`.
* Builtin instances (specified scalars, introspection types) are identity
  bearing JS objects that user code cannot forge; they are embedded as
  dedicated constructors `NamedType.stdScalar` / `NamedType.introspection`.
-/

namespace IrisSchema

/-- JS-object lookup on an association list. -/
def alookup {α : Type} : List (String × α) → String → Option α
| [], _ => none
| (k, v) :: rest, n => if k = n then some v else alookup rest n

/-- JS-object key assignment: replace in place if the key exists, else append. -/
def aset {α : Type} : List (String × α) → String → α → List (String × α)
| [], n, v => [(n, v)]
| (k, w) :: rest, n, v => if k = n then (k, v) :: rest else (k, w) :: aset rest n v

def akeys {α : Type} (m : List (String × α)) : List String := m.map Prod.fst

/-- `Object.values`. -/
def avalues {α : Type} (m : List (String × α)) : List α := m.map Prod.snd

/-- `mapValue`: map over the values of an object, keeping keys. -/
def amapv {α β : Type} (f : α → β) (m : List (String × α)) : List (String × β) :=
  m.map (fun p => (p.1, f p.2))

/-- Object spread `{...base, ...ext}`: entries of `ext` assigned into `base` in order. -/
def aunion {α : Type} (base ext : List (String × α)) : List (String × α) :=
  ext.foldl (fun acc p => aset acc p.1 p.2) base

/-! ## AST (input syntax tree, per the external-parser contract) -/

/-- Literal value nodes carried on default values and directive arguments. -/
inductive Value where
| strVal (s : String)
| intVal (i : Int)
| boolVal (b : Bool)
| enumV (s : String)
| nullVal
deriving DecidableEq, Repr

/-- A directive application site `@name(args)` on a definition node. -/
structure DirectiveApp where
  name : String
  args : List (String × Value)
deriving DecidableEq, Repr

/-- Type expressions: `NamedType | ListType | NonNullType`. -/
inductive TypeNode where
| named (name : String)
| list (t : TypeNode)
| nonNull (t : TypeNode)
deriving DecidableEq, Repr

/-- `InputValueDefinitionNode` (arguments and data fields). -/
structure InputValueDef where
  name : String
  description : Option String
  type : TypeNode
  defaultValue : Option Value
  directives : List DirectiveApp
deriving DecidableEq, Repr

/-- `FieldDefinitionNode`. -/
structure FieldDef where
  name : String
  description : Option String
  args : List InputValueDef
  type : TypeNode
  directives : List DirectiveApp
deriving DecidableEq, Repr

/-- `VariantDefinitionNode` of a data type. -/
structure VariantDef where
  name : String
  description : Option String
  fields : List InputValueDef
  directives : List DirectiveApp
deriving DecidableEq, Repr

inductive OpKind where
| query
| mutation
| subscription
deriving DecidableEq, Repr

structure OperationTypeDef where
  operation : OpKind
  typeName : String
deriving DecidableEq, Repr

/-- `SchemaDefinitionNode`. -/
structure SchemaDef where
  description : Option String
  operationTypes : List OperationTypeDef
deriving DecidableEq, Repr

/-- `DirectiveDefinitionNode`. -/
structure DirectiveDef where
  name : String
  description : Option String
  locations : List String
  repeatable : Bool
  arguments : List InputValueDef
deriving DecidableEq, Repr

/-- `TypeDefinitionNode`: the closed set of type definition kinds.  The data
kind stores its first variant separately: the grammar guarantees at least one
variant (`data X = V | ...` or `data X { fields }`), and `buildType`
destructures `const [variant, ...ext] = astNode.variants`. -/
inductive TypeDef where
| object (name : String) (description : Option String) (interfaces : List String)
    (fields : List FieldDef) (directives : List DirectiveApp)
| iface (name : String) (description : Option String) (interfaces : List String)
    (fields : List FieldDef) (directives : List DirectiveApp)
| union (name : String) (description : Option String) (types : List String)
    (directives : List DirectiveApp)
| scalar (name : String) (description : Option String) (directives : List DirectiveApp)
| data (name : String) (description : Option String) (firstVariant : VariantDef)
    (restVariants : List VariantDef) (directives : List DirectiveApp)
deriving DecidableEq, Repr

def TypeDef.name : TypeDef → String
| .object n _ _ _ _ => n
| .iface n _ _ _ _ => n
| .union n _ _ _ => n
| .scalar n _ _ => n
| .data n _ _ _ _ => n

/-- Modelled from the spec: extension counterparts mirror each definition
shape, marked as fragments targeting an existing name (`language/ast.ts` and
`language/predicates.ts` are not under `src/`; the spec's AST contract in §6
describes them). -/
inductive TypeExtension where
| objectExt (name : String) (interfaces : List String) (fields : List FieldDef)
| ifaceExt (name : String) (interfaces : List String) (fields : List FieldDef)
| unionExt (name : String) (types : List String)
| scalarExt (name : String) (directives : List DirectiveApp)
| dataExt (name : String) (variants : List VariantDef)
deriving DecidableEq, Repr

def TypeExtension.targetName : TypeExtension → String
| .objectExt n _ _ => n
| .ifaceExt n _ _ => n
| .unionExt n _ => n
| .scalarExt n _ => n
| .dataExt n _ => n

def TypeExtension.extInterfaces : TypeExtension → List String
| .objectExt _ i _ => i
| .ifaceExt _ i _ => i
| _ => []

def TypeExtension.extFields : TypeExtension → List FieldDef
| .objectExt _ _ f => f
| .ifaceExt _ _ f => f
| _ => []

def TypeExtension.extTypes : TypeExtension → List String
| .unionExt _ t => t
| _ => []

def TypeExtension.extVariants : TypeExtension → List VariantDef
| .dataExt _ v => v
| _ => []

def TypeExtension.extDirectives : TypeExtension → List DirectiveApp
| .scalarExt _ d => d
| _ => []

/-- A document definition: schema definition, type definition, directive
definition, or a type extension fragment. -/
inductive Definition where
| schemaD (sd : SchemaDef)
| typeD (td : TypeDef)
| directiveD (dd : DirectiveDef)
| extensionD (ex : TypeExtension)
deriving DecidableEq, Repr

structure Document where
  definitions : List Definition
deriving DecidableEq, Repr

/-! ## Snapshot data model (the built, resolved schema configuration) -/

/-- A built argument / input-field config (`GraphQLArgumentConfig` /
input field config): the resolved type reference, description, default value,
deprecation reason and source node. -/
structure InputValueCfg where
  type : TypeNode
  description : Option String
  defaultValue : Option Value
  deprecationReason : Option String
  astNode : InputValueDef
deriving DecidableEq, Repr

/-- A built field config (`GraphQLFieldConfig`). -/
structure FieldCfg where
  type : TypeNode
  description : Option String
  args : List (String × InputValueCfg)
  deprecationReason : Option String
  astNode : FieldDef
deriving DecidableEq, Repr

/-- A built enum-value config for a data-type variant. -/
structure EnumValueCfg where
  description : Option String
  deprecationReason : Option String
  astNode : VariantDef
deriving DecidableEq, Repr

/-- A built named type.  `stdScalar` and `introspection` are the fixed builtin
instances (`specifiedScalarTypes` / `introspectionTypes`); user code can never
forge them, mirroring the identity checks `isSpecifiedScalarType` /
`isIntrospectionType`.  `dataRecord` / `dataEnum` are the two runtime shapes of
`IrisDataType` (`isInputObjectType` / `isEnumType`). -/
inductive NamedType where
| stdScalar (name : String)
| introspection (name : String)
| scalar (name : String) (description : Option String) (specifiedByURL : Option String)
| object (name : String) (description : Option String) (interfaces : List String)
    (fields : List (String × FieldCfg))
| iface (name : String) (description : Option String) (interfaces : List String)
    (fields : List (String × FieldCfg))
| union (name : String) (description : Option String) (types : List String)
| dataRecord (name : String) (description : Option String)
    (fields : List (String × InputValueCfg))
| dataEnum (name : String) (description : Option String)
    (values : List (String × EnumValueCfg))
deriving DecidableEq, Repr

def NamedType.name : NamedType → String
| .stdScalar n => n
| .introspection n => n
| .scalar n _ _ => n
| .object n _ _ _ => n
| .iface n _ _ _ => n
| .union n _ _ => n
| .dataRecord n _ _ => n
| .dataEnum n _ _ => n

/-- A built directive (`GraphQLDirective` config). -/
structure DirectiveCfg where
  name : String
  description : Option String
  locations : List String
  isRepeatable : Bool
  args : List (String × InputValueCfg)
  astNode : Option DirectiveDef
deriving DecidableEq, Repr

/-- `GraphQLSchemaNormalizedConfig`: the immutable schema snapshot value. -/
structure SchemaConfig where
  description : Option String
  query : Option NamedType
  mutation : Option NamedType
  subscription : Option NamedType
  types : List NamedType
  directives : List DirectiveCfg
  extensions : List (String × Value)
  astNode : Option SchemaDef
  assumeValid : Bool
deriving DecidableEq, Repr

/-- Caller options (`Options extends GraphQLSchemaValidationOptions`). -/
structure Options where
  assumeValid : Option Bool
  assumeValidSDL : Option Bool
deriving DecidableEq, Repr

/-! ## Builtin registry -/

/-- The five specified scalar instances.  `type/scalars.ts` is not under
`src/`; the fixed table is modelled per the spec's builtin-registry component
(the standard GraphQL scalar names). -/
def specifiedScalarTypes : List NamedType :=
  [.stdScalar "String", .stdScalar "Int", .stdScalar "Float",
   .stdScalar "Boolean", .stdScalar "ID"]

/-- The introspection type instances.  `type/introspection.ts` is not under
`src/`; modelled per the spec's fixed reflective-type table (the standard
GraphQL introspection type names), as opaque identity-bearing instances. -/
def introspectionTypes : List NamedType :=
  [.introspection "__Schema", .introspection "__Directive",
   .introspection "__DirectiveLocation", .introspection "__Type",
   .introspection "__Field", .introspection "__InputValue",
   .introspection "__EnumValue", .introspection "__TypeKind"]

/-- `stdTypeMap = keyMap([...specifiedScalarTypes, ...introspectionTypes], t => t.name)`. -/
def stdTypeMap : List (String × NamedType) :=
  (specifiedScalarTypes ++ introspectionTypes).map (fun t => (t.name, t))

/-! ## Directive metadata extraction -/

/-- Read a string-valued argument off a coerced directive-argument map. -/
def argStringValue (args : List (String × Value)) (key : String) : Option String :=
  match alookup args key with
  | some (Value.strVal s) => some s
  | _ => none

/-- Modelled from the spec: `getDirectiveValues` (directive-argument coercion,
`execution/values.ts`, not under `src/`) reads the application of a well-known
directive off a definition site; absent if the directive is not applied. -/
def getDirectiveValuesOn (dirName : String) (dirs : List DirectiveApp) :
    Option (List (String × Value)) :=
  (dirs.find? (fun d => d.name == dirName)).map DirectiveApp.args

/-- `getDeprecationReason`: the `reason` argument of an applied `deprecated`
directive. -/
def getDeprecationReason (dirs : List DirectiveApp) : Option String :=
  (getDirectiveValuesOn "deprecated" dirs).bind (fun a => argStringValue a "reason")

/-- `getSpecifiedByURL`: the `url` argument of an applied `specifiedBy`
directive on a scalar node. -/
def getSpecifiedByURL (dirs : List DirectiveApp) : Option String :=
  (getDirectiveValuesOn "specifiedBy" dirs).bind (fun a => argStringValue a "url")

/-- Modelled from the spec: literal-to-value conversion (`valueFromAST`,
`utilities/valueFromAST.ts`, not under `src/`) is an external collaborator;
the embedding carries the literal through unchanged. -/
def valueFromAST (lit : Option Value) (_resolvedType : TypeNode) : Option Value := lit

/-! ## Type reference resolution -/

/-- `replaceType`: rewraps List/NonNull around `replaceNamedType`.  In the
by-name embedding `replaceNamedType` (an unchecked `typeMap[name]` lookup that
returns the new instance registered under the same name) is the identity on
the stored name. -/
def replaceType : TypeNode → TypeNode
| .list t => .list (replaceType t)
| .nonNull t => .nonNull (replaceType t)
| .named n => .named n

/-- `extendArg`: re-resolve an argument's type through the new registry. -/
def extendArg (a : InputValueCfg) : InputValueCfg :=
  { a with type := replaceType a.type }

/-- `extendField`: re-resolve a field's type and arguments. -/
def extendField (f : FieldCfg) : FieldCfg :=
  { f with type := replaceType f.type, args := amapv extendArg f.args }

/-- `replaceDirective`: rebuild a directive with re-resolved argument types. -/
def replaceDirective (d : DirectiveCfg) : DirectiveCfg :=
  { d with args := amapv extendArg d.args }

def unknownTypeMsg (n : String) : String := "Unknown type: \"" ++ n ++ "\"."

/-- `getNamedType`: `stdTypeMap[name] ?? typeMap[name]`, throwing on a name
absent from both.  During forcing only the registry's key set matters, so the
check is parameterized by the resolvability predicate of the seeded registry
and returns the (checked) name. -/
def getNamedTypeChecked (resolvable : String → Bool) (n : String) : Except String String :=
  if resolvable n then .ok n else .error (unknownTypeMsg n)

/-- `getWrappedType`: resolve a type expression, rewrapping List/NonNull. -/
def getWrappedType (resolvable : String → Bool) : TypeNode → Except String TypeNode
| .list t =>
  match getWrappedType resolvable t with
  | .ok t2 => .ok (.list t2)
  | .error e => .error e
| .nonNull t =>
  match getWrappedType resolvable t with
  | .ok t2 => .ok (.nonNull t2)
  | .error e => .error e
| .named n =>
  match getNamedTypeChecked resolvable n with
  | .ok _ => .ok (.named n)
  | .error e => .error e

/-! ## Builders -/

/-- Inner loop shared by `buildArgumentMap` and `buildInputFieldMap` (the two
functions have identical per-entry bodies in the source): build configs for a
list of input value definitions into an accumulating map. -/
def buildArgumentMapInto (r : String → Bool) (m : List (String × InputValueCfg)) :
    List InputValueDef → Except String (List (String × InputValueCfg))
| [] => .ok m
| a :: rest =>
  match getWrappedType r a.type with
  | .error e => .error e
  | .ok ty =>
    buildArgumentMapInto r
      (aset m a.name ⟨ty, a.description, valueFromAST a.defaultValue ty,
        getDeprecationReason a.directives, a⟩) rest

/-- `buildArgumentMap`. -/
def buildArgumentMap (r : String → Bool) (args : List InputValueDef) :
    Except String (List (String × InputValueCfg)) :=
  buildArgumentMapInto r [] args

/-- One node's inner loop of `buildFieldMap`. -/
def buildFieldsInto (r : String → Bool) (m : List (String × FieldCfg)) :
    List FieldDef → Except String (List (String × FieldCfg))
| [] => .ok m
| f :: rest =>
  match getWrappedType r f.type with
  | .error e => .error e
  | .ok ty =>
    match buildArgumentMap r f.args with
    | .error e => .error e
    | .ok argm =>
      buildFieldsInto r
        (aset m f.name ⟨ty, f.description, argm, getDeprecationReason f.directives, f⟩) rest

def buildFieldMapInto (r : String → Bool) (m : List (String × FieldCfg)) :
    List (List FieldDef) → Except String (List (String × FieldCfg))
| [] => .ok m
| fs :: rest =>
  match buildFieldsInto r m fs with
  | .error e => .error e
  | .ok m2 => buildFieldMapInto r m2 rest

/-- `buildFieldMap` over a list of nodes, each contributing its field list;
a field name declared on a later node overwrites an earlier one (explicit
last-write-wins assignment per name). -/
def buildFieldMap (r : String → Bool) (nodes : List (List FieldDef)) :
    Except String (List (String × FieldCfg)) :=
  buildFieldMapInto r [] nodes

/-- `node.variants[0].fields ?? []` (only the first variant's fields; the
zero-variant case is unreachable at the call sites). -/
def headFields : List VariantDef → List InputValueDef
| [] => []
| v :: _ => v.fields

def buildInputFieldMapInto (r : String → Bool) (m : List (String × InputValueCfg)) :
    List (List VariantDef) → Except String (List (String × InputValueCfg))
| [] => .ok m
| vs :: rest =>
  match buildArgumentMapInto r m (headFields vs) with
  | .error e => .error e
  | .ok m2 => buildInputFieldMapInto r m2 rest

def buildInputFieldMap (r : String → Bool) (nodes : List (List VariantDef)) :
    Except String (List (String × InputValueCfg)) :=
  buildInputFieldMapInto r [] nodes

/-- `buildEnumValueMap` over a list of data nodes, each contributing its
variants as nullary enum values (variant fields are not consulted). -/
def buildEnumValueMap (nodes : List (List VariantDef)) : List (String × EnumValueCfg) :=
  nodes.foldl
    (fun m vs => vs.foldl
      (fun m v => aset m v.name ⟨v.description, getDeprecationReason v.directives, v⟩) m) []

/-- Check each name of one node's reference list via `getNamedType`. -/
def checkNames (r : String → Bool) : List String → Except String (List String)
| [] => .ok []
| n :: rest =>
  match getNamedTypeChecked r n with
  | .error e => .error e
  | .ok _ =>
    match checkNames r rest with
    | .error e => .error e
    | .ok l => .ok (n :: l)

/-- `nodes.flatMap(node => node.xs?.map(getNamedType) ?? [])`. -/
def checkNamesFlat (r : String → Bool) : List (List String) → Except String (List String)
| [] => .ok []
| ns :: rest =>
  match checkNames r ns with
  | .error e => .error e
  | .ok l =>
    match checkNamesFlat r rest with
    | .error e => .error e
    | .ok l2 => .ok (l ++ l2)

/-- `buildInterfaces`. -/
def buildInterfaces (r : String → Bool) (nodes : List (List String)) :
    Except String (List String) :=
  checkNamesFlat r nodes

/-- `buildUnionTypes`. -/
def buildUnionTypes (r : String → Bool) (nodes : List (List String)) :
    Except String (List String) :=
  checkNamesFlat r nodes

/-- `buildDirective`. -/
def buildDirective (r : String → Bool) (d : DirectiveDef) : Except String DirectiveCfg :=
  match buildArgumentMap r d.arguments with
  | .error e => .error e
  | .ok am => .ok ⟨d.name, d.description, d.locations, d.repeatable, am, some d⟩

def buildDirectives (r : String → Bool) : List DirectiveDef → Except String (List DirectiveCfg)
| [] => .ok []
| d :: rest =>
  match buildDirective r d with
  | .error e => .error e
  | .ok dc =>
    match buildDirectives r rest with
    | .error e => .error e
    | .ok l => .ok (dc :: l)

/-- The per-type extension lookup `typeExtensionsMap[name] ?? []`. -/
def extsOf (em : List (String × List TypeExtension)) (n : String) : List TypeExtension :=
  (alookup em n).getD []

/-- `buildType`: construct a brand-new named type from its defining AST node
plus the extension fragments registered for its name. -/
def buildType (r : String → Bool) (em : List (String × List TypeExtension)) :
    TypeDef → Except String NamedType
| .object n dsc ifaces fields _dirs =>
  let exts := extsOf em n
  match buildInterfaces r (ifaces :: exts.map TypeExtension.extInterfaces) with
  | .error e => .error e
  | .ok allIfaces =>
    match buildFieldMap r (fields :: exts.map TypeExtension.extFields) with
    | .error e => .error e
    | .ok fm => .ok (.object n dsc allIfaces fm)
| .iface n dsc ifaces fields _dirs =>
  let exts := extsOf em n
  match buildInterfaces r (ifaces :: exts.map TypeExtension.extInterfaces) with
  | .error e => .error e
  | .ok allIfaces =>
    match buildFieldMap r (fields :: exts.map TypeExtension.extFields) with
    | .error e => .error e
    | .ok fm => .ok (.iface n dsc allIfaces fm)
| .union n dsc tys _dirs =>
  let exts := extsOf em n
  match buildUnionTypes r (tys :: exts.map TypeExtension.extTypes) with
  | .error e => .error e
  | .ok l => .ok (.union n dsc l)
| .scalar n dsc dirs => .ok (.scalar n dsc (getSpecifiedByURL dirs))
| .data n dsc v0 vrest _dirs =>
  if vrest.isEmpty && !v0.fields.isEmpty then
    match buildInputFieldMap r [v0 :: vrest] with
    | .error e => .error e
    | .ok fm => .ok (.dataRecord n dsc fm)
  else .ok (.dataEnum n dsc (buildEnumValueMap [v0 :: vrest]))

/-! ## Rebuilding existing types (`extendNamedType` and friends) -/

/-- `extendScalarType`: fold the extension fragments in document order; the
`specifiedBy` URL of the last fragment that declares one wins. -/
def extendScalarType (em : List (String × List TypeExtension)) (n : String)
    (dsc : Option String) (url : Option String) : NamedType :=
  let exts := extsOf em n
  let url2 := exts.foldl
    (fun acc e =>
      match getSpecifiedByURL e.extDirectives with
      | some u => some u
      | none => acc) url
  .scalar n dsc url2

/-- `extendObjectType`: original interfaces (re-resolved) followed by
extension interfaces; original fields (re-resolved) spread with extension
fields. -/
def extendObjectType (em : List (String × List TypeExtension)) (r : String → Bool)
    (n : String) (dsc : Option String) (ifaces : List String)
    (fields : List (String × FieldCfg)) : Except String NamedType :=
  let exts := extsOf em n
  match buildInterfaces r (exts.map TypeExtension.extInterfaces) with
  | .error e => .error e
  | .ok extIf =>
    match buildFieldMap r (exts.map TypeExtension.extFields) with
    | .error e => .error e
    | .ok extF => .ok (.object n dsc (ifaces ++ extIf) (aunion (amapv extendField fields) extF))

/-- `extendInterfaceType` (same shape as `extendObjectType`). -/
def extendInterfaceType (em : List (String × List TypeExtension)) (r : String → Bool)
    (n : String) (dsc : Option String) (ifaces : List String)
    (fields : List (String × FieldCfg)) : Except String NamedType :=
  let exts := extsOf em n
  match buildInterfaces r (exts.map TypeExtension.extInterfaces) with
  | .error e => .error e
  | .ok extIf =>
    match buildFieldMap r (exts.map TypeExtension.extFields) with
    | .error e => .error e
    | .ok extF => .ok (.iface n dsc (ifaces ++ extIf) (aunion (amapv extendField fields) extF))

/-- `extendUnionType`: original members (re-resolved) followed by
extension-declared members, no de-duplication. -/
def extendUnionType (em : List (String × List TypeExtension)) (r : String → Bool)
    (n : String) (dsc : Option String) (tys : List String) : Except String NamedType :=
  let exts := extsOf em n
  match buildUnionTypes r (exts.map TypeExtension.extTypes) with
  | .error e => .error e
  | .ok extT => .ok (.union n dsc (tys ++ extT))

/-- `extendInputObjectType` (record-shaped `IrisDataType`). -/
def extendInputObjectType (em : List (String × List TypeExtension)) (r : String → Bool)
    (n : String) (dsc : Option String)
    (fields : List (String × InputValueCfg)) : Except String NamedType :=
  let exts := extsOf em n
  match buildInputFieldMap r (exts.map TypeExtension.extVariants) with
  | .error e => .error e
  | .ok extF =>
    .ok (.dataRecord n dsc
      (aunion (amapv (fun f => { f with type := replaceType f.type }) fields) extF))

/-- `extendEnumType` (sum-shaped `IrisDataType`). -/
def extendEnumType (em : List (String × List TypeExtension)) (n : String)
    (dsc : Option String) (vals : List (String × EnumValueCfg)) : NamedType :=
  .dataEnum n dsc (aunion vals (buildEnumValueMap ((extsOf em n).map TypeExtension.extVariants)))

/-- `extendNamedType`: builtin/introspection instances are returned unchanged;
otherwise dispatch on the type kind. -/
def extendNamedType (em : List (String × List TypeExtension)) (r : String → Bool) :
    NamedType → Except String NamedType
| .stdScalar n => .ok (.stdScalar n)
| .introspection n => .ok (.introspection n)
| .scalar n dsc url => .ok (extendScalarType em n dsc url)
| .object n dsc ifaces fields => extendObjectType em r n dsc ifaces fields
| .iface n dsc ifaces fields => extendInterfaceType em r n dsc ifaces fields
| .union n dsc tys => extendUnionType em r n dsc tys
| .dataEnum n dsc vals => .ok (extendEnumType em n dsc vals)
| .dataRecord n dsc fields => extendInputObjectType em r n dsc fields

/-! ## Phase 1: classification -/

/-- The result of the classification loop over `documentAST.definitions`. -/
structure Classified where
  typeDefs : List TypeDef
  typeExtensionsMap : List (String × List TypeExtension)
  directiveDefs : List DirectiveDef
  schemaDef : Option SchemaDef
deriving DecidableEq, Repr

/-- One iteration of the classification loop: schema definitions are captured
(last one wins), type definitions and directive definitions are collected, and
every other definition — in particular every extension fragment — falls
through all branches and is dropped.  No branch ever writes into
`typeExtensionsMap`. -/
def classifyStep (acc : Classified) : Definition → Classified
| .schemaD sd => { acc with schemaDef := some sd }
| .typeD td => { acc with typeDefs := acc.typeDefs ++ [td] }
| .directiveD dd => { acc with directiveDefs := acc.directiveDefs ++ [dd] }
| .extensionD _ => acc

def classify (defs : List Definition) : Classified :=
  defs.foldl classifyStep ⟨[], [], [], none⟩

/-- The no-op shortcut condition: zero extension-map keys, zero new types,
zero new directives, and no schema definition. -/
def isNoopDoc (c : Classified) : Bool :=
  c.typeExtensionsMap.isEmpty && c.typeDefs.isEmpty && c.directiveDefs.isEmpty
    && c.schemaDef.isNone

/-! ## Phase 2: seeding and forcing the registry -/

/-- A registry entry before its deferred body has been forced. -/
inductive TypeSeed where
| existing (t : NamedType)
| std (t : NamedType)
| fresh (td : TypeDef)
deriving DecidableEq, Repr

/-- `typeMap[name] = stdTypeMap[name] ?? buildType(typeNode)` — the builtin
instance shadows a user definition of the same name, decided at seed time. -/
def seedOfDef (td : TypeDef) : TypeSeed :=
  match alookup stdTypeMap td.name with
  | some s => .std s
  | none => .fresh td

/-- The registry after both seeding loops: every existing snapshot type under
its name, then every new definition under its name (overwriting). -/
def seedTypeMap (cfg : SchemaConfig) (c : Classified) : List (String × TypeSeed) :=
  c.typeDefs.foldl (fun m td => aset m td.name (seedOfDef td))
    (cfg.types.foldl (fun m t => aset m t.name (TypeSeed.existing t)) [])

/-- A name resolves iff it is a builtin or a key of the seeded registry. -/
def callResolvable (cfg : SchemaConfig) (c : Classified) (n : String) : Bool :=
  (alookup stdTypeMap n).isSome || (alookup (seedTypeMap cfg c) n).isSome

/-- Force one registry entry. -/
def forceSeed (em : List (String × List TypeExtension)) (r : String → Bool) :
    TypeSeed → Except String NamedType
| .existing t => extendNamedType em r t
| .std t => .ok t
| .fresh td => buildType r em td

/-- Force every registry entry, in order. -/
def forceSeeds (em : List (String × List TypeExtension)) (r : String → Bool) :
    List (String × TypeSeed) → Except String (List (String × NamedType))
| [] => .ok []
| (k, s) :: rest =>
  match forceSeed em r s with
  | .error e => .error e
  | .ok t =>
    match forceSeeds em r rest with
    | .error e => .error e
    | .ok m => .ok ((k, t) :: m)

/-- The fully built type map of one extension call. -/
def buildTypeMapChecked (cfg : SchemaConfig) (c : Classified) :
    Except String (List (String × NamedType)) :=
  forceSeeds c.typeExtensionsMap (callResolvable cfg c) (seedTypeMap cfg c)

/-! ## Operation types and assembly -/

structure OpTypes where
  query : Option NamedType
  mutation : Option NamedType
  subscription : Option NamedType
deriving DecidableEq, Repr

def OpTypes.get (o : OpTypes) : OpKind → Option NamedType
| .query => o.query
| .mutation => o.mutation
| .subscription => o.subscription

def OpTypes.setOp (o : OpTypes) : OpKind → NamedType → OpTypes
| .query, t => { o with query := some t }
| .mutation, t => { o with mutation := some t }
| .subscription, t => { o with subscription := some t }

/-- `getNamedType` used eagerly against the forced registry (for operation
types): `stdTypeMap[name] ?? typeMap[name]`, throwing if absent from both. -/
def getNamedTypeVal (m : List (String × NamedType)) (n : String) :
    Except String NamedType :=
  match alookup stdTypeMap n with
  | some t => .ok t
  | none =>
    match alookup m n with
    | some t => .ok t
    | none => .error (unknownTypeMsg n)

def getOperationTypesFrom (m : List (String × NamedType)) (acc : OpTypes) :
    List OperationTypeDef → Except String OpTypes
| [] => .ok acc
| ot :: rest =>
  match getNamedTypeVal m ot.typeName with
  | .error e => .error e
  | .ok t => getOperationTypesFrom m (acc.setOp ot.operation t) rest

def getOperationTypesNodes (m : List (String × NamedType)) (acc : OpTypes) :
    List SchemaDef → Except String OpTypes
| [] => .ok acc
| sd :: rest =>
  match getOperationTypesFrom m acc sd.operationTypes with
  | .error e => .error e
  | .ok acc2 => getOperationTypesNodes m acc2 rest

/-- `getOperationTypes`: each declared operation type assigned in order (later
declarations of the same operation overwrite earlier ones). -/
def getOperationTypes (m : List (String × NamedType)) (nodes : List SchemaDef) :
    Except String OpTypes :=
  getOperationTypesNodes m ⟨none, none, none⟩ nodes

/-- Key-presence override of the spread `{query: base..., ...opTypes}`: an
operation declared on the schema definition replaces the carried-over root. -/
def mergeRoot (declared base : Option NamedType) : Option NamedType :=
  match declared with
  | some t => some t
  | none => base

/-- `...(schemaDef && getOperationTypes([schemaDef]))`: the spread source of
declared operation types (empty when there is no schema definition). -/
def resolveOpTypes (m : List (String × NamedType)) :
    Option SchemaDef → Except String OpTypes
| some sd => getOperationTypes m [sd]
| none => .ok ⟨none, none, none⟩

/-- The final snapshot record returned by `extendSchemaImpl` (its
non-shortcut branch): description from the schema definition node (if any),
carried-over roots re-resolved through the new registry overridden by declared
ones, all registry values, re-resolved directives followed by new ones, a
reset extensions bag, and the caller's `assumeValid` defaulting to false. -/
def assembleConfig (cfg : SchemaConfig) (c : Classified) (opts : Options)
    (m : List (String × NamedType)) (opTys : OpTypes)
    (newDirs : List DirectiveCfg) : SchemaConfig :=
  { description := c.schemaDef.bind SchemaDef.description
  , query := mergeRoot opTys.query (cfg.query.bind (fun q => alookup m q.name))
  , mutation := mergeRoot opTys.mutation (cfg.mutation.bind (fun q => alookup m q.name))
  , subscription := mergeRoot opTys.subscription
      (cfg.subscription.bind (fun q => alookup m q.name))
  , types := avalues m
  , directives := cfg.directives.map replaceDirective ++ newDirs
  , extensions := []
  , astNode := (match c.schemaDef with | some sd => some sd | none => cfg.astNode)
  , assumeValid := opts.assumeValid.getD false }

/-- `extendSchemaImpl`: the core algorithm.  Classify the document; take the
no-op shortcut returning the original config itself; otherwise seed and force
the registry, resolve roots and directives, and assemble the new snapshot. -/
def extendSchemaImpl (cfg : SchemaConfig) (doc : Document) (opts : Options) :
    Except String SchemaConfig :=
  let c := classify doc.definitions
  if isNoopDoc c then .ok cfg
  else
    match buildTypeMapChecked cfg c with
    | .error e => .error e
    | .ok m =>
      match resolveOpTypes m c.schemaDef with
      | .error e => .error e
      | .ok opTys =>
        match buildDirectives (callResolvable cfg c) c.directiveDefs with
        | .error e => .error e
        | .ok newDirs => .ok (assembleConfig cfg c opts m opTys newDirs)

/-! ## Accessors used by the statements -/

def SchemaConfig.rootOf (cfg : SchemaConfig) : OpKind → Option NamedType
| .query => cfg.query
| .mutation => cfg.mutation
| .subscription => cfg.subscription

/-- The last operation-type declaration for `op` on a schema definition node
(the loop assigns in order, so the last one wins). -/
def declaredOpName (sd : SchemaDef) (op : OpKind) : Option String :=
  sd.operationTypes.foldl
    (fun a ot => if ot.operation = op then some ot.typeName else a) none

def isDataRecordType : NamedType → Bool
| .dataRecord _ _ _ => true
| _ => false

def NamedType.fieldNames : NamedType → List String
| .object _ _ _ f => akeys f
| .iface _ _ _ f => akeys f
| .dataRecord _ _ f => akeys f
| _ => []

def NamedType.valueNames : NamedType → List String
| .dataEnum _ _ vs => akeys vs
| _ => []

/-- The record/sum classification condition of `buildType`'s data branch:
`ext.length === 0 && variant.fields.length > 0` — exactly one variant carrying
at least one field. -/
def recordShaped (v0 : VariantDef) (vrest : List VariantDef) : Bool :=
  vrest.isEmpty && !v0.fields.isEmpty

/-- The definitions that the classification loop keeps: schema definitions,
type definitions and directive definitions (everything else falls through). -/
def keepDef : Definition → Bool
| .extensionD _ => false
| _ => true

/-- The name of the registry entry a seed will produce. -/
def seedName : TypeSeed → String
| .existing t => t.name
| .std t => t.name
| .fresh td => td.name

/-- The last type definition with a given name, mirroring the overwriting
assignment `typeMap[name] = ...` of the definition loop. -/
def lastDefNamed (n : String) (l : List TypeDef) : Option TypeDef :=
  l.foldl (fun a td => if td.name = n then some td else a) none

/-! ## Names referenced by type expressions that the build resolves -/

/-- The core named type of a type expression (unwrapping List/NonNull). -/
def typeNodeRef : TypeNode → String
| .named n => n
| .list t => typeNodeRef t
| .nonNull t => typeNodeRef t

def refsOfInputValues (args : List InputValueDef) : List String :=
  args.map (fun a => typeNodeRef a.type)

def refsOfFields (fs : List FieldDef) : List String :=
  fs.flatMap (fun f => typeNodeRef f.type :: refsOfInputValues f.args)

/-- The type-expression names a fresh `buildType` run resolves: interfaces and
field/argument types of object/interface definitions, member names of union
definitions, and — only for record-shaped data definitions — the single
variant's field types.  Scalar definitions and sum-shaped data definitions
resolve nothing. -/
def refsOfTypeDef : TypeDef → List String
| .object _ _ ifaces fields _ => ifaces ++ refsOfFields fields
| .iface _ _ ifaces fields _ => ifaces ++ refsOfFields fields
| .union _ _ tys _ => tys
| .scalar _ _ _ => []
| .data _ _ v0 vrest _ =>
  if recordShaped v0 vrest then refsOfInputValues v0.fields else []

/-- References resolved while forcing the seeded registry: only `fresh` seeds
(the last non-builtin definition per name) resolve anything — `existing`
seeds re-resolve by unchecked registry lookup, `std` seeds are returned as
is. -/
def seedRefs (seeds : List (String × TypeSeed)) : List String :=
  seeds.flatMap (fun p => match p.2 with | .fresh td => refsOfTypeDef td | _ => [])

/-- All type-expression names one extension call actually resolves through
`getNamedType`: those of the forced registry, of every directive definition's
arguments, and of every declared operation type. -/
def callRefs (cfg : SchemaConfig) (c : Classified) : List String :=
  seedRefs (seedTypeMap cfg c)
    ++ c.directiveDefs.flatMap (fun d => refsOfInputValues d.arguments)
    ++ (match c.schemaDef with
        | some sd => sd.operationTypes.map OperationTypeDef.typeName
        | none => [])

/-- Every type-expression name occurring anywhere in a document's type
definitions (used to state C3 exactly as frozen: "some type expression" with
no restriction — including fields of sum-shaped data variants). -/
def allTypeExprNames (doc : Document) : List String :=
  doc.definitions.flatMap (fun d =>
    match d with
    | .typeD (.object _ _ ifaces fields _) => ifaces ++ refsOfFields fields
    | .typeD (.iface _ _ ifaces fields _) => ifaces ++ refsOfFields fields
    | .typeD (.union _ _ tys _) => tys
    | .typeD (.scalar _ _ _) => []
    | .typeD (.data _ _ v0 vrest _) => (v0 :: vrest).flatMap (fun v => refsOfInputValues v.fields)
    | .directiveD dd => refsOfInputValues dd.arguments
    | .schemaD sd => sd.operationTypes.map OperationTypeDef.typeName
    | .extensionD _ => [])

/-! ## Association-list lemmas -/

theorem alookup_aset {α : Type} (m : List (String × α)) (k n : String) (v : α) :
    alookup (aset m k v) n = if k = n then some v else alookup m n := by
  induction m with
  | nil => simp [aset, alookup]
  | cons p rest ih =>
    obtain ⟨k', w⟩ := p
    by_cases hk : k' = k
    · subst hk
      simp [aset, alookup]
      by_cases hn : k' = n <;> simp [hn, alookup]
    · simp only [aset, if_neg hk]
      by_cases hn : k' = n
      · subst hn
        have : ¬ (k = k') := fun h => hk h.symm
        simp [alookup, this]
      · simp [alookup, hn, ih]

theorem mem_aset {α : Type} (m : List (String × α)) (k : String) (v : α)
    (p : String × α) (h : p ∈ aset m k v) : p = (k, v) ∨ p ∈ m := by
  induction m with
  | nil => simpa [aset] using h
  | cons q rest ih =>
    obtain ⟨k', w⟩ := q
    by_cases hk : k' = k
    · subst hk
      simp only [aset, if_pos rfl] at h
      rcases List.mem_cons.mp h with h1 | h1
      · exact Or.inl h1
      · exact Or.inr (List.mem_cons_of_mem _ h1)
    · simp only [aset, if_neg hk] at h
      rcases List.mem_cons.mp h with h1 | h1
      · exact Or.inr (by simp [h1])
      · rcases ih h1 with h2 | h2
        · exact Or.inl h2
        · exact Or.inr (List.mem_cons_of_mem _ h2)

theorem akeys_aset {α : Type} (m : List (String × α)) (k : String) (v : α) :
    akeys (aset m k v) = if k ∈ akeys m then akeys m else akeys m ++ [k] := by
  induction m with
  | nil => simp [aset, akeys]
  | cons p rest ih =>
    obtain ⟨k', w⟩ := p
    by_cases hk : k' = k
    · subst hk
      simp [aset, akeys]
    · simp only [aset, if_neg hk, akeys, List.map_cons]
      by_cases hmem : k ∈ akeys rest
      · simp only [akeys] at hmem ih
        simp [ih, hmem, Ne.symm hk]
      · simp only [akeys] at hmem ih
        simp [ih, hmem, Ne.symm hk]

theorem nodup_akeys_aset {α : Type} (m : List (String × α)) (k : String) (v : α)
    (h : (akeys m).Nodup) : (akeys (aset m k v)).Nodup := by
  rw [akeys_aset]
  by_cases hmem : k ∈ akeys m
  · simpa [hmem] using h
  · simp only [hmem, if_false]
    simpa [List.nodup_append] using ⟨h, hmem⟩

theorem alookup_isSome_iff {α : Type} (m : List (String × α)) (n : String) :
    (alookup m n).isSome = true ↔ n ∈ akeys m := by
  induction m with
  | nil => simp [alookup, akeys]
  | cons p rest ih =>
    obtain ⟨k, v⟩ := p
    by_cases hk : k = n
    · subst hk
      simp [alookup, akeys]
    · simp [alookup, hk, akeys, ih, Ne.symm hk]

theorem alookup_mem {α : Type} (m : List (String × α)) (n : String) (v : α)
    (h : alookup m n = some v) : (n, v) ∈ m := by
  induction m with
  | nil => simp [alookup] at h
  | cons p rest ih =>
    obtain ⟨k, w⟩ := p
    simp only [alookup] at h
    by_cases hk : k = n
    · rw [if_pos hk] at h
      injection h with h2
      subst hk
      subst h2
      exact List.mem_cons_self _ _
    · rw [if_neg hk] at h
      exact List.mem_cons_of_mem _ (ih h)

theorem aunion_nil {α : Type} (m : List (String × α)) : aunion m [] = m := rfl

theorem amapv_congr_id {α : Type} (f : α → α) (m : List (String × α))
    (h : ∀ a, f a = a) : amapv f m = m := by
  induction m with
  | nil => rfl
  | cons p rest ih =>
    obtain ⟨k, a⟩ := p
    simp only [amapv] at ih ⊢
    simp [h, ih]

/-! ## Re-resolution through the registry is the identity on names -/

theorem replaceType_eq (t : TypeNode) : replaceType t = t := by
  induction t with
  | named n => rfl
  | list t ih => simp [replaceType, ih]
  | nonNull t ih => simp [replaceType, ih]

theorem extendArg_eq (a : InputValueCfg) : extendArg a = a := by
  cases a
  simp [extendArg, replaceType_eq]

theorem extendField_eq (f : FieldCfg) : extendField f = f := by
  cases f
  simp [extendField, replaceType_eq, amapv_congr_id _ _ extendArg_eq]

theorem replaceDirective_eq (d : DirectiveCfg) : replaceDirective d = d := by
  cases d
  simp [replaceDirective, amapv_congr_id _ _ extendArg_eq]

/-- With the extensions map empty (as it always is — see `classify_extMap`),
rebuilding an existing non-builtin type reproduces it unchanged, and builtins
are returned unchanged by the explicit shortcut. -/
theorem extendNamedType_nil (r : String → Bool) (t : NamedType) :
    extendNamedType [] r t = .ok t := by
  cases t with
  | stdScalar n => rfl
  | introspection n => rfl
  | scalar n dsc url => simp [extendNamedType, extendScalarType, extsOf, alookup]
  | object n dsc ifaces fields =>
    simp [extendNamedType, extendObjectType, extsOf, alookup, buildInterfaces,
      checkNamesFlat, buildFieldMap, buildFieldMapInto, aunion,
      amapv_congr_id _ _ extendField_eq]
  | iface n dsc ifaces fields =>
    simp [extendNamedType, extendInterfaceType, extsOf, alookup, buildInterfaces,
      checkNamesFlat, buildFieldMap, buildFieldMapInto, aunion,
      amapv_congr_id _ _ extendField_eq]
  | union n dsc tys =>
    simp [extendNamedType, extendUnionType, extsOf, alookup, buildUnionTypes,
      checkNamesFlat]
  | dataRecord n dsc fields =>
    have : amapv (fun f => { f with type := replaceType f.type }) fields = fields :=
      amapv_congr_id _ _ (fun a => by cases a; simp [replaceType_eq])
    simp [extendNamedType, extendInputObjectType, extsOf, alookup, buildInputFieldMap,
      buildInputFieldMapInto, aunion, this]
  | dataEnum n dsc vals =>
    simp [extendNamedType, extendEnumType, extsOf, alookup, buildEnumValueMap, aunion]

/-! ## Classification lemmas -/

theorem classify_foldl_extMap (defs : List Definition) :
    ∀ acc : Classified,
      (defs.foldl classifyStep acc).typeExtensionsMap = acc.typeExtensionsMap := by
  induction defs with
  | nil => intro acc; rfl
  | cons d rest ih =>
    intro acc
    rw [List.foldl_cons, ih]
    cases d <;> rfl

/-- No branch of the classification loop writes into `typeExtensionsMap`: it
stays the empty object it was initialized to. -/
theorem classify_extMap (defs : List Definition) :
    (classify defs).typeExtensionsMap = [] :=
  classify_foldl_extMap defs ⟨[], [], [], none⟩

theorem classify_foldl_filter (defs : List Definition) :
    ∀ acc : Classified,
      (defs.filter keepDef).foldl classifyStep acc = defs.foldl classifyStep acc := by
  induction defs with
  | nil => intro acc; rfl
  | cons d rest ih =>
    intro acc
    cases d with
    | extensionD ex => simpa [keepDef, List.filter_cons, classifyStep] using ih acc
    | schemaD sd => simpa [keepDef, List.filter_cons] using ih (classifyStep acc (.schemaD sd))
    | typeD td => simpa [keepDef, List.filter_cons] using ih (classifyStep acc (.typeD td))
    | directiveD dd =>
      simpa [keepDef, List.filter_cons] using ih (classifyStep acc (.directiveD dd))

/-- Filtering extension fragments out of a document does not change its
classification. -/
theorem classify_filter (defs : List Definition) :
    classify (defs.filter keepDef) = classify defs :=
  classify_foldl_filter defs ⟨[], [], [], none⟩

/-- Inserting a single extension fragment anywhere in a document does not
change its classification. -/
theorem classify_insert_ext (d1 d2 : List Definition) (ex : TypeExtension) :
    classify (d1 ++ Definition.extensionD ex :: d2) = classify (d1 ++ d2) := by
  simp only [classify, List.foldl_append, List.foldl_cons]
  rfl

/-! ## Fold lemmas for overwriting assignments -/

/-- An option-overwriting fold (`if p x then some (g x) else acc`) either
returns the last hit in the list or falls back to its initial accumulator. -/
theorem foldl_opt_override {α β : Type} (p : α → Prop) [DecidablePred p] (g : α → β) :
    ∀ (l : List α) (a : Option β),
      l.foldl (fun acc x => if p x then some (g x) else acc) a
        = match l.foldl (fun acc x => if p x then some (g x) else acc) none with
          | some y => some y
          | none => a := by
  intro l
  induction l with
  | nil => intro a; rfl
  | cons x l ih =>
    intro a
    rw [List.foldl_cons, List.foldl_cons, ih (if p x then some (g x) else a),
      ih (if p x then some (g x) else none)]
    cases hfold : l.foldl (fun acc x => if p x then some (g x) else acc) none with
    | some y => rfl
    | none => by_cases hp : p x <;> simp [hp]

/-! ## Seeding lemmas -/

theorem seedName_seedOfDef (td : TypeDef) : seedName (seedOfDef td) = td.name := by
  unfold seedOfDef
  cases hstd : alookup stdTypeMap td.name with
  | none => rfl
  | some s =>
    have hmem : (td.name, s) ∈ stdTypeMap := alookup_mem _ _ _ hstd
    have hall : ∀ q ∈ stdTypeMap, NamedType.name q.2 = q.1 := by decide
    simpa [seedName] using hall _ hmem

theorem seed_defs_fold_lookup (l : List TypeDef) :
    ∀ (acc : List (String × TypeSeed)) (n : String),
      alookup (l.foldl (fun m td => aset m td.name (seedOfDef td)) acc) n
        = match lastDefNamed n l with
          | some td => some (seedOfDef td)
          | none => alookup acc n := by
  induction l with
  | nil => intro acc n; rfl
  | cons td l ih =>
    intro acc n
    rw [List.foldl_cons, ih]
    show _ = (match lastDefNamed n (td :: l) with
              | some td => some (seedOfDef td)
              | none => alookup acc n)
    unfold lastDefNamed
    rw [List.foldl_cons,
      foldl_opt_override (fun td : TypeDef => td.name = n) (fun td => td)
        l (if td.name = n then some td else none)]
    cases hfold : l.foldl
        (fun a td => if td.name = n then some td else a) none with
    | some td2 =>
      unfold lastDefNamed at ih
      simp [hfold]
    | none =>
      unfold lastDefNamed at ih
      simp only [hfold]
      by_cases hn : td.name = n
      · simp [hn, alookup_aset]
      · simp [hn, alookup_aset]

/-- Membership invariant for folds of overwriting assignments. -/
theorem foldl_aset_inv {α β : Type} (P : String × α → Prop) (f : β → String) (g : β → α)
    (l : List β) (hstep : ∀ x : β, P (f x, g x)) :
    ∀ A : List (String × α), (∀ p ∈ A, P p) →
      ∀ p ∈ l.foldl (fun m x => aset m (f x) (g x)) A, P p := by
  induction l with
  | nil => intro A hA; exact hA
  | cons x l ih =>
    intro A hA p hp
    refine ih (aset A (f x) (g x)) ?_ p hp
    intro q hq
    rcases mem_aset _ _ _ _ hq with h1 | h1
    · subst h1; exact hstep x
    · exact hA q h1

/-- Key-distinctness invariant for folds of overwriting assignments. -/
theorem foldl_aset_nodup {α β : Type} (f : β → String) (g : β → α) (l : List β) :
    ∀ A : List (String × α), (akeys A).Nodup →
      (akeys (l.foldl (fun m x => aset m (f x) (g x)) A)).Nodup := by
  induction l with
  | nil => intro A hA; exact hA
  | cons x l ih => intro A hA; exact ih _ (nodup_akeys_aset _ _ _ hA)

/-- Every seed is registered under the name it will produce. -/
theorem seedTypeMap_name (cfg : SchemaConfig) (c : Classified) :
    ∀ p ∈ seedTypeMap cfg c, seedName p.2 = p.1 := by
  unfold seedTypeMap
  refine foldl_aset_inv (fun p => seedName p.2 = p.1) TypeDef.name seedOfDef c.typeDefs
    seedName_seedOfDef _ ?_
  refine foldl_aset_inv (fun p => seedName p.2 = p.1) NamedType.name TypeSeed.existing
    cfg.types (fun t => rfl) [] ?_
  simp

theorem seedTypeMap_nodup_keys (cfg : SchemaConfig) (c : Classified) :
    (akeys (seedTypeMap cfg c)).Nodup := by
  unfold seedTypeMap
  refine foldl_aset_nodup TypeDef.name seedOfDef c.typeDefs _ ?_
  refine foldl_aset_nodup NamedType.name TypeSeed.existing cfg.types [] ?_
  simp [akeys]

/-! ## Forcing lemmas -/

theorem forceSeeds_keys (em : List (String × List TypeExtension)) (r : String → Bool) :
    ∀ (seeds : List (String × TypeSeed)) (m : List (String × NamedType)),
      forceSeeds em r seeds = .ok m → akeys m = akeys seeds := by
  intro seeds
  induction seeds with
  | nil =>
    intro m h
    simp only [forceSeeds] at h
    injection h with h
    subst h
    rfl
  | cons p rest ih =>
    intro m h
    obtain ⟨k, s⟩ := p
    simp only [forceSeeds] at h
    cases h1 : forceSeed em r s with
    | error e => rw [h1] at h; exact absurd h (by simp)
    | ok t =>
      rw [h1] at h
      cases h2 : forceSeeds em r rest with
      | error e => rw [h2] at h; exact absurd h (by simp)
      | ok m2 =>
        rw [h2] at h
        injection h with h
        subst h
        simp [akeys, ih m2 h2, akeys] at ih ⊢
        exact ih m2 h2

theorem forceSeeds_all (em : List (String × List TypeExtension)) (r : String → Bool) :
    ∀ (seeds : List (String × TypeSeed)) (m : List (String × NamedType)),
      forceSeeds em r seeds = .ok m →
      ∀ p ∈ seeds, ∃ t, forceSeed em r p.2 = .ok t := by
  intro seeds
  induction seeds with
  | nil => intro m h p hp; simp at hp
  | cons q rest ih =>
    intro m h p hp
    obtain ⟨k, s⟩ := q
    simp only [forceSeeds] at h
    cases h1 : forceSeed em r s with
    | error e => rw [h1] at h; exact absurd h (by simp)
    | ok t =>
      rw [h1] at h
      cases h2 : forceSeeds em r rest with
      | error e => rw [h2] at h; exact absurd h (by simp)
      | ok m2 =>
        rcases List.mem_cons.mp hp with h3 | h3
        · subst h3; exact ⟨t, h1⟩
        · exact ih m2 h2 p h3

theorem forceSeeds_mem (em : List (String × List TypeExtension)) (r : String → Bool) :
    ∀ (seeds : List (String × TypeSeed)) (m : List (String × NamedType)),
      forceSeeds em r seeds = .ok m →
      ∀ p ∈ m, ∃ s, (p.1, s) ∈ seeds ∧ forceSeed em r s = .ok p.2 := by
  intro seeds
  induction seeds with
  | nil =>
    intro m h p hp
    simp only [forceSeeds] at h
    injection h with h
    subst h
    simp at hp
  | cons q rest ih =>
    intro m h p hp
    obtain ⟨k, s⟩ := q
    simp only [forceSeeds] at h
    cases h1 : forceSeed em r s with
    | error e => rw [h1] at h; exact absurd h (by simp)
    | ok t =>
      rw [h1] at h
      cases h2 : forceSeeds em r rest with
      | error e => rw [h2] at h; exact absurd h (by simp)
      | ok m2 =>
        rw [h2] at h
        injection h with h
        subst h
        rcases List.mem_cons.mp hp with h3 | h3
        · subst h3; exact ⟨s, List.mem_cons_self _ _, h1⟩
        · obtain ⟨s2, hs1, hs2⟩ := ih m2 h2 p h3
          exact ⟨s2, List.mem_cons_of_mem _ hs1, hs2⟩

theorem forceSeeds_lookup (em : List (String × List TypeExtension)) (r : String → Bool) :
    ∀ (seeds : List (String × TypeSeed)) (m : List (String × NamedType)),
      forceSeeds em r seeds = .ok m →
      ∀ (n : String) (s : TypeSeed), alookup seeds n = some s →
        ∃ t, forceSeed em r s = .ok t ∧ alookup m n = some t := by
  intro seeds
  induction seeds with
  | nil => intro m h n s hs; simp [alookup] at hs
  | cons q rest ih =>
    intro m h n s hs
    obtain ⟨k, s0⟩ := q
    simp only [forceSeeds] at h
    cases h1 : forceSeed em r s0 with
    | error e => rw [h1] at h; exact absurd h (by simp)
    | ok t =>
      rw [h1] at h
      cases h2 : forceSeeds em r rest with
      | error e => rw [h2] at h; exact absurd h (by simp)
      | ok m2 =>
        rw [h2] at h
        injection h with h
        subst h
        simp only [alookup] at hs ⊢
        by_cases hk : k = n
        · rw [if_pos hk] at hs ⊢
          injection hs with hs
          subst hs
          exact ⟨t, h1, rfl⟩
        · rw [if_neg hk] at hs ⊢
          exact ih m2 h2 n s hs

/-! ## Built types keep the name of their definition -/

theorem buildType_name (r : String → Bool) (em : List (String × List TypeExtension))
    (td : TypeDef) (t : NamedType) (h : buildType r em td = .ok t) :
    t.name = td.name := by
  cases td with
  | object n dsc ifaces fields dirs =>
    simp only [buildType] at h
    cases h1 : buildInterfaces r (ifaces :: (extsOf em n).map TypeExtension.extInterfaces) with
    | error e => rw [h1] at h; exact absurd h (by simp)
    | ok l =>
      rw [h1] at h
      cases h2 : buildFieldMap r (fields :: (extsOf em n).map TypeExtension.extFields) with
      | error e => rw [h2] at h; exact absurd h (by simp)
      | ok fm =>
        rw [h2] at h
        injection h with h
        subst h
        rfl
  | iface n dsc ifaces fields dirs =>
    simp only [buildType] at h
    cases h1 : buildInterfaces r (ifaces :: (extsOf em n).map TypeExtension.extInterfaces) with
    | error e => rw [h1] at h; exact absurd h (by simp)
    | ok l =>
      rw [h1] at h
      cases h2 : buildFieldMap r (fields :: (extsOf em n).map TypeExtension.extFields) with
      | error e => rw [h2] at h; exact absurd h (by simp)
      | ok fm =>
        rw [h2] at h
        injection h with h
        subst h
        rfl
  | union n dsc tys dirs =>
    simp only [buildType] at h
    cases h1 : buildUnionTypes r (tys :: (extsOf em n).map TypeExtension.extTypes) with
    | error e => rw [h1] at h; exact absurd h (by simp)
    | ok l =>
      rw [h1] at h
      injection h with h
      subst h
      rfl
  | scalar n dsc dirs =>
    simp only [buildType] at h
    injection h with h
    subst h
    rfl
  | data n dsc v0 vrest dirs =>
    simp only [buildType] at h
    by_cases hrec : vrest.isEmpty && !v0.fields.isEmpty
    · rw [if_pos hrec] at h
      cases h1 : buildInputFieldMap r [v0 :: vrest] with
      | error e => rw [h1] at h; exact absurd h (by simp)
      | ok fm =>
        rw [h1] at h
        injection h with h
        subst h
        rfl
    · rw [if_neg hrec] at h
      injection h with h
      subst h
      rfl

theorem extendNamedType_name (em : List (String × List TypeExtension)) (r : String → Bool)
    (u t : NamedType) (h : extendNamedType em r u = .ok t) : t.name = u.name := by
  cases u with
  | stdScalar n => injection h with h; subst h; rfl
  | introspection n => injection h with h; subst h; rfl
  | scalar n dsc url =>
    simp only [extendNamedType] at h
    injection h with h
    subst h
    rfl
  | object n dsc ifaces fields =>
    simp only [extendNamedType, extendObjectType] at h
    cases h1 : buildInterfaces r ((extsOf em n).map TypeExtension.extInterfaces) with
    | error e => rw [h1] at h; exact absurd h (by simp)
    | ok l =>
      rw [h1] at h
      cases h2 : buildFieldMap r ((extsOf em n).map TypeExtension.extFields) with
      | error e => rw [h2] at h; exact absurd h (by simp)
      | ok fm =>
        rw [h2] at h
        injection h with h
        subst h
        rfl
  | iface n dsc ifaces fields =>
    simp only [extendNamedType, extendInterfaceType] at h
    cases h1 : buildInterfaces r ((extsOf em n).map TypeExtension.extInterfaces) with
    | error e => rw [h1] at h; exact absurd h (by simp)
    | ok l =>
      rw [h1] at h
      cases h2 : buildFieldMap r ((extsOf em n).map TypeExtension.extFields) with
      | error e => rw [h2] at h; exact absurd h (by simp)
      | ok fm =>
        rw [h2] at h
        injection h with h
        subst h
        rfl
  | union n dsc tys =>
    simp only [extendNamedType, extendUnionType] at h
    cases h1 : buildUnionTypes r ((extsOf em n).map TypeExtension.extTypes) with
    | error e => rw [h1] at h; exact absurd h (by simp)
    | ok l =>
      rw [h1] at h
      injection h with h
      subst h
      rfl
  | dataRecord n dsc fields =>
    simp only [extendNamedType, extendInputObjectType] at h
    cases h1 : buildInputFieldMap r ((extsOf em n).map TypeExtension.extVariants) with
    | error e => rw [h1] at h; exact absurd h (by simp)
    | ok fm =>
      rw [h1] at h
      injection h with h
      subst h
      rfl
  | dataEnum n dsc vals =>
    simp only [extendNamedType] at h
    injection h with h
    subst h
    rfl

theorem forceSeed_name (em : List (String × List TypeExtension)) (r : String → Bool)
    (s : TypeSeed) (t : NamedType) (h : forceSeed em r s = .ok t) :
    t.name = seedName s := by
  cases s with
  | existing u => exact extendNamedType_name em r u t h
  | std u =>
    simp only [forceSeed] at h
    injection h with h
    subst h
    rfl
  | fresh td => exact buildType_name r em td t h

/-! ## Resolution soundness: a successful build resolved all its references -/

theorem getWrappedType_resolvable (r : String → Bool) (t t2 : TypeNode)
    (h : getWrappedType r t = .ok t2) : r (typeNodeRef t) = true := by
  induction t generalizing t2 with
  | named n =>
    simp only [getWrappedType, getNamedTypeChecked] at h
    by_cases hr : r n = true
    · exact hr
    · rw [if_neg hr] at h; exact absurd h (by simp)
  | list t ih =>
    simp only [getWrappedType] at h
    cases h1 : getWrappedType r t with
    | error e => rw [h1] at h; exact absurd h (by simp)
    | ok t3 => exact ih t3 h1
  | nonNull t ih =>
    simp only [getWrappedType] at h
    cases h1 : getWrappedType r t with
    | error e => rw [h1] at h; exact absurd h (by simp)
    | ok t3 => exact ih t3 h1

theorem buildArgumentMapInto_sound (r : String → Bool) :
    ∀ (args : List InputValueDef) (m m2 : List (String × InputValueCfg)),
      buildArgumentMapInto r m args = .ok m2 →
      ∀ x ∈ refsOfInputValues args, r x = true := by
  intro args
  induction args with
  | nil => intro m m2 h x hx; simp [refsOfInputValues] at hx
  | cons a rest ih =>
    intro m m2 h x hx
    simp only [buildArgumentMapInto] at h
    cases h1 : getWrappedType r a.type with
    | error e => rw [h1] at h; exact absurd h (by simp)
    | ok ty =>
      rw [h1] at h
      simp only [refsOfInputValues, List.map_cons, List.mem_cons] at hx
      rcases hx with hx | hx
      · subst hx; exact getWrappedType_resolvable r _ _ h1
      · exact ih _ _ h x hx

theorem buildFieldsInto_sound (r : String → Bool) :
    ∀ (fs : List FieldDef) (m m2 : List (String × FieldCfg)),
      buildFieldsInto r m fs = .ok m2 →
      ∀ x ∈ refsOfFields fs, r x = true := by
  intro fs
  induction fs with
  | nil => intro m m2 h x hx; simp [refsOfFields] at hx
  | cons f rest ih =>
    intro m m2 h x hx
    simp only [buildFieldsInto] at h
    cases h1 : getWrappedType r f.type with
    | error e => rw [h1] at h; exact absurd h (by simp)
    | ok ty =>
      rw [h1] at h
      cases h2 : buildArgumentMap r f.args with
      | error e => rw [h2] at h; exact absurd h (by simp)
      | ok argm =>
        rw [h2] at h
        simp only [refsOfFields, List.flatMap_cons, List.mem_append, List.mem_cons] at hx
        rcases hx with (hx | hx) | hx
        · subst hx; exact getWrappedType_resolvable r _ _ h1
        · exact buildArgumentMapInto_sound r _ _ _ h2 x hx
        · exact ih _ _ h x (by simpa [refsOfFields] using hx)

/-- The first node of a multi-node field-map build was processed. -/
theorem buildFieldMapInto_first (r : String → Bool) (fs : List FieldDef)
    (rest : List (List FieldDef)) (m m2 : List (String × FieldCfg))
    (h : buildFieldMapInto r m (fs :: rest) = .ok m2) :
    ∃ m3, buildFieldsInto r m fs = .ok m3 := by
  simp only [buildFieldMapInto] at h
  cases h1 : buildFieldsInto r m fs with
  | error e => rw [h1] at h; exact absurd h (by simp)
  | ok m3 => exact ⟨m3, rfl⟩

theorem buildInputFieldMapInto_first (r : String → Bool) (vs : List VariantDef)
    (rest : List (List VariantDef)) (m m2 : List (String × InputValueCfg))
    (h : buildInputFieldMapInto r m (vs :: rest) = .ok m2) :
    ∃ m3, buildArgumentMapInto r m (headFields vs) = .ok m3 := by
  simp only [buildInputFieldMapInto] at h
  cases h1 : buildArgumentMapInto r m (headFields vs) with
  | error e => rw [h1] at h; exact absurd h (by simp)
  | ok m3 => exact ⟨m3, rfl⟩

theorem checkNames_sound (r : String → Bool) :
    ∀ (ns : List String) (l : List String), checkNames r ns = .ok l →
      ∀ n ∈ ns, r n = true := by
  intro ns
  induction ns with
  | nil => intro l h n hn; simp at hn
  | cons n0 rest ih =>
    intro l h n hn
    simp only [checkNames, getNamedTypeChecked] at h
    by_cases hr : r n0 = true
    · rw [if_pos hr] at h
      rcases List.mem_cons.mp hn with h1 | h1
      · subst h1; exact hr
      · cases h2 : checkNames r rest with
        | error e => rw [h2] at h; exact absurd h (by simp)
        | ok l2 => exact ih l2 h2 n h1
    · rw [if_neg hr] at h
      exact absurd h (by simp)

theorem checkNamesFlat_first (r : String → Bool) (ns : List String)
    (rest : List (List String)) (l : List String)
    (h : checkNamesFlat r (ns :: rest) = .ok l) :
    ∃ l2, checkNames r ns = .ok l2 := by
  simp only [checkNamesFlat] at h
  cases h1 : checkNames r ns with
  | error e => rw [h1] at h; exact absurd h (by simp)
  | ok l2 => exact ⟨l2, rfl⟩

/-- A fresh type build that succeeded resolved every reference it consults. -/
theorem buildType_sound (r : String → Bool) (em : List (String × List TypeExtension))
    (td : TypeDef) (t : NamedType) (h : buildType r em td = .ok t) :
    ∀ x ∈ refsOfTypeDef td, r x = true := by
  intro x hx
  cases td with
  | object n dsc ifaces fields dirs =>
    simp only [buildType] at h
    cases h1 : buildInterfaces r (ifaces :: (extsOf em n).map TypeExtension.extInterfaces) with
    | error e => rw [h1] at h; exact absurd h (by simp)
    | ok l =>
      rw [h1] at h
      cases h2 : buildFieldMap r (fields :: (extsOf em n).map TypeExtension.extFields) with
      | error e => rw [h2] at h; exact absurd h (by simp)
      | ok fm =>
        simp only [refsOfTypeDef, List.mem_append] at hx
        rcases hx with hx | hx
        · obtain ⟨l2, hl2⟩ := checkNamesFlat_first r _ _ _ h1
          exact checkNames_sound r _ _ hl2 x hx
        · obtain ⟨m3, hm3⟩ := buildFieldMapInto_first r _ _ _ _ h2
          exact buildFieldsInto_sound r _ _ _ hm3 x hx
  | iface n dsc ifaces fields dirs =>
    simp only [buildType] at h
    cases h1 : buildInterfaces r (ifaces :: (extsOf em n).map TypeExtension.extInterfaces) with
    | error e => rw [h1] at h; exact absurd h (by simp)
    | ok l =>
      rw [h1] at h
      cases h2 : buildFieldMap r (fields :: (extsOf em n).map TypeExtension.extFields) with
      | error e => rw [h2] at h; exact absurd h (by simp)
      | ok fm =>
        simp only [refsOfTypeDef, List.mem_append] at hx
        rcases hx with hx | hx
        · obtain ⟨l2, hl2⟩ := checkNamesFlat_first r _ _ _ h1
          exact checkNames_sound r _ _ hl2 x hx
        · obtain ⟨m3, hm3⟩ := buildFieldMapInto_first r _ _ _ _ h2
          exact buildFieldsInto_sound r _ _ _ hm3 x hx
  | union n dsc tys dirs =>
    simp only [buildType] at h
    cases h1 : buildUnionTypes r (tys :: (extsOf em n).map TypeExtension.extTypes) with
    | error e => rw [h1] at h; exact absurd h (by simp)
    | ok l =>
      obtain ⟨l2, hl2⟩ := checkNamesFlat_first r _ _ _ h1
      exact checkNames_sound r _ _ hl2 x (by simpa [refsOfTypeDef] using hx)
  | scalar n dsc dirs => simp [refsOfTypeDef] at hx
  | data n dsc v0 vrest dirs =>
    simp only [buildType] at h
    simp only [refsOfTypeDef, recordShaped] at hx
    by_cases hrec : vrest.isEmpty && !v0.fields.isEmpty
    · rw [if_pos hrec] at h
      rw [if_pos hrec] at hx
      cases h1 : buildInputFieldMap r [v0 :: vrest] with
      | error e => rw [h1] at h; exact absurd h (by simp)
      | ok fm =>
        obtain ⟨m3, hm3⟩ := buildInputFieldMapInto_first r _ _ _ _ h1
        exact buildArgumentMapInto_sound r _ _ _ hm3 x hx
    · rw [if_neg hrec] at hx
      simp at hx

theorem buildDirectives_all (r : String → Bool) :
    ∀ (dds : List DirectiveDef) (l : List DirectiveCfg),
      buildDirectives r dds = .ok l →
      ∀ d ∈ dds, ∀ x ∈ refsOfInputValues d.arguments, r x = true := by
  intro dds
  induction dds with
  | nil => intro l h d hd; simp at hd
  | cons d0 rest ih =>
    intro l h d hd
    simp only [buildDirectives, buildDirective] at h
    cases h1 : buildArgumentMap r d0.arguments with
    | error e => rw [h1] at h; exact absurd h (by simp)
    | ok am =>
      rw [h1] at h
      cases h2 : buildDirectives r rest with
      | error e => rw [h2] at h; exact absurd h (by simp)
      | ok l2 =>
        rcases List.mem_cons.mp hd with h3 | h3
        · subst h3; exact buildArgumentMapInto_sound r _ _ _ h1
        · exact ih l2 h2 d h3

theorem getNamedTypeVal_ok (m : List (String × NamedType)) (n : String) (t : NamedType)
    (h : getNamedTypeVal m n = .ok t) :
    (alookup stdTypeMap n).isSome = true ∨ (alookup m n).isSome = true := by
  simp only [getNamedTypeVal] at h
  cases h1 : alookup stdTypeMap n with
  | some t2 => exact Or.inl (by simp [h1])
  | none =>
    rw [h1] at h
    cases h2 : alookup m n with
    | some t2 => exact Or.inr (by simp [h2])
    | none => rw [h2] at h; exact absurd h (by simp)

theorem getOperationTypesFrom_sound (m : List (String × NamedType)) :
    ∀ (ots : List OperationTypeDef) (acc o : OpTypes),
      getOperationTypesFrom m acc ots = .ok o →
      ∀ ot ∈ ots, ∃ t, getNamedTypeVal m ot.typeName = .ok t := by
  intro ots
  induction ots with
  | nil => intro acc o h ot hot; simp at hot
  | cons ot0 rest ih =>
    intro acc o h ot hot
    simp only [getOperationTypesFrom] at h
    cases h1 : getNamedTypeVal m ot0.typeName with
    | error e => rw [h1] at h; exact absurd h (by simp)
    | ok t =>
      rw [h1] at h
      rcases List.mem_cons.mp hot with h2 | h2
      · subst h2; exact ⟨t, h1⟩
      · exact ih _ o h ot h2

/-! ## Inversion of the assembled call -/

theorem extendSchemaImpl_noop (cfg : SchemaConfig) (doc : Document) (opts : Options)
    (h : isNoopDoc (classify doc.definitions) = true) :
    extendSchemaImpl cfg doc opts = .ok cfg := by
  simp [extendSchemaImpl, h]

theorem extendSchemaImpl_ok_elim (cfg : SchemaConfig) (doc : Document) (opts : Options)
    (out : SchemaConfig) (h : extendSchemaImpl cfg doc opts = .ok out)
    (hn : isNoopDoc (classify doc.definitions) = false) :
    ∃ m o nd, buildTypeMapChecked cfg (classify doc.definitions) = .ok m
      ∧ resolveOpTypes m (classify doc.definitions).schemaDef = .ok o
      ∧ buildDirectives (callResolvable cfg (classify doc.definitions))
          (classify doc.definitions).directiveDefs = .ok nd
      ∧ out = assembleConfig cfg (classify doc.definitions) opts m o nd := by
  simp only [extendSchemaImpl, hn, Bool.false_eq_true, if_false] at h
  cases h1 : buildTypeMapChecked cfg (classify doc.definitions) with
  | error e => rw [h1] at h; exact absurd h (by simp)
  | ok m =>
    simp only [h1] at h
    cases h2 : resolveOpTypes m (classify doc.definitions).schemaDef with
    | error e => simp [h2] at h
    | ok o =>
      simp only [h2] at h
      cases h3 : buildDirectives (callResolvable cfg (classify doc.definitions))
          (classify doc.definitions).directiveDefs with
      | error e => simp [h3] at h
      | ok nd =>
        simp only [h3] at h
        injection h with h
        exact ⟨m, o, nd, rfl, h2, rfl, h.symm⟩

/-! ## Operation-type resolution: last declaration per operation wins -/

theorem setOp_get (acc : OpTypes) (op2 op : OpKind) (t : NamedType) :
    (acc.setOp op2 t).get op = if op2 = op then some t else acc.get op := by
  cases op2 <;> cases op <;> simp [OpTypes.setOp, OpTypes.get]

theorem getOperationTypesFrom_get (m : List (String × NamedType)) (op : OpKind) :
    ∀ (ots : List OperationTypeDef) (acc o : OpTypes),
      getOperationTypesFrom m acc ots = .ok o →
      o.get op
        = match ots.foldl (fun a ot => if ot.operation = op then some ot.typeName else a) none with
          | some nm => (getNamedTypeVal m nm).toOption
          | none => acc.get op := by
  intro ots
  induction ots with
  | nil =>
    intro acc o h
    simp only [getOperationTypesFrom] at h
    injection h with h
    subst h
    rfl
  | cons ot0 rest ih =>
    intro acc o h
    simp only [getOperationTypesFrom] at h
    cases h1 : getNamedTypeVal m ot0.typeName with
    | error e => rw [h1] at h; exact absurd h (by simp)
    | ok t =>
      rw [h1] at h
      have hih := ih _ o h
      rw [List.foldl_cons,
        foldl_opt_override (fun ot : OperationTypeDef => ot.operation = op)
          OperationTypeDef.typeName rest
          (if ot0.operation = op then some ot0.typeName else none)]
      cases hfold : rest.foldl
          (fun a ot => if ot.operation = op then some ot.typeName else a) none with
      | some nm =>
        rw [hfold] at hih
        simpa [hfold] using hih
      | none =>
        rw [hfold] at hih
        rw [hih, setOp_get]
        by_cases hop : ot0.operation = op
        · simp [hop, hfold, h1, Except.toOption]
        · simp [hop, hfold]

theorem resolveOpTypes_get_none (m : List (String × NamedType)) (o : OpTypes)
    (h : resolveOpTypes m none = .ok o) (op : OpKind) : o.get op = none := by
  simp only [resolveOpTypes] at h
  injection h with h
  subst h
  cases op <;> rfl

theorem resolveOpTypes_get_some (m : List (String × NamedType)) (sd : SchemaDef)
    (o : OpTypes) (h : resolveOpTypes m (some sd) = .ok o) (op : OpKind) :
    o.get op = match declaredOpName sd op with
      | some nm => (getNamedTypeVal m nm).toOption
      | none => none := by
  simp only [resolveOpTypes, getOperationTypes, getOperationTypesNodes] at h
  cases h1 : getOperationTypesFrom m ⟨none, none, none⟩ sd.operationTypes with
  | error e => rw [h1] at h; exact absurd h (by simp)
  | ok acc2 =>
    simp only [h1, getOperationTypesNodes] at h
    injection h with h
    subst h
    have h2 := getOperationTypesFrom_get m op sd.operationTypes ⟨none, none, none⟩ _ h1
    unfold declaredOpName
    rw [h2]
    cases hfold : sd.operationTypes.foldl
        (fun a ot => if ot.operation = op then some ot.typeName else a) none with
    | some nm => rfl
    | none => cases op <;> rfl

/-! ## The forced registry maps each name to a type of that name -/

theorem typeMap_name (cfg : SchemaConfig) (c : Classified)
    (m : List (String × NamedType)) (h : buildTypeMapChecked cfg c = .ok m) :
    ∀ p ∈ m, p.2.name = p.1 := by
  intro p hp
  obtain ⟨s, hs1, hs2⟩ := forceSeeds_mem _ _ _ _ h p hp
  rw [forceSeed_name _ _ _ _ hs2]
  exact seedTypeMap_name cfg c (p.1, s) hs1

theorem typeMap_keys (cfg : SchemaConfig) (c : Classified)
    (m : List (String × NamedType)) (h : buildTypeMapChecked cfg c = .ok m) :
    akeys m = akeys (seedTypeMap cfg c) :=
  forceSeeds_keys _ _ _ _ h

theorem avalues_map_name (m : List (String × NamedType))
    (h : ∀ p ∈ m, p.2.name = p.1) :
    (avalues m).map NamedType.name = akeys m := by
  induction m with
  | nil => rfl
  | cons p rest ih =>
    simp only [avalues, akeys, List.map_cons, List.map_map] at ih ⊢
    have h1 := h p (List.mem_cons_self _ _)
    have h2 : ∀ q ∈ rest, q.2.name = q.1 := fun q hq => h q (List.mem_cons_of_mem _ hq)
    simp [h1, ih h2]

theorem alookup_mem_avalues {α : Type} (m : List (String × α)) (n : String) (v : α)
    (h : alookup m n = some v) : v ∈ avalues m := by
  have := alookup_mem m n v h
  exact List.mem_map.mpr ⟨(n, v), this, rfl⟩

/-! ## Further shared lemmas -/

theorem mem_akeys_aset {α : Type} (m : List (String × α)) (k : String) (v : α)
    (x : String) : x ∈ akeys (aset m k v) ↔ x = k ∨ x ∈ akeys m := by
  rw [akeys_aset]
  by_cases hk : k ∈ akeys m
  · simp only [hk, if_true]
    constructor
    · intro h; exact Or.inr h
    · intro h; rcases h with h | h
      · subst h; exact hk
      · exact h
  · simp [hk, or_comm]

theorem buildArgumentMapInto_keys (r : String → Bool) :
    ∀ (args : List InputValueDef) (m m2 : List (String × InputValueCfg)),
      buildArgumentMapInto r m args = .ok m2 →
      ∀ x, x ∈ akeys m2 ↔ x ∈ akeys m ∨ x ∈ args.map InputValueDef.name := by
  intro args
  induction args with
  | nil =>
    intro m m2 h x
    simp only [buildArgumentMapInto] at h
    injection h with h
    subst h
    simp
  | cons a rest ih =>
    intro m m2 h x
    simp only [buildArgumentMapInto] at h
    cases h1 : getWrappedType r a.type with
    | error e => rw [h1] at h; exact absurd h (by simp)
    | ok ty =>
      rw [h1] at h
      rw [ih _ _ h x, mem_akeys_aset]
      simp only [List.map_cons, List.mem_cons]
      tauto

theorem enum_values_fold_keys :
    ∀ (vs : List VariantDef) (m : List (String × EnumValueCfg)) (x : String),
      x ∈ akeys (vs.foldl
        (fun m v => aset m v.name ⟨v.description, getDeprecationReason v.directives, v⟩) m)
      ↔ x ∈ akeys m ∨ x ∈ vs.map VariantDef.name := by
  intro vs
  induction vs with
  | nil => intro m x; simp
  | cons v rest ih =>
    intro m x
    rw [List.foldl_cons, ih, mem_akeys_aset]
    simp only [List.map_cons, List.mem_cons]
    tauto

theorem flatMap_nil_of {α β : Type} (l : List α) (f : α → List β)
    (h : ∀ x ∈ l, f x = []) : l.flatMap f = [] := by
  induction l with
  | nil => rfl
  | cons x l ih =>
    rw [List.flatMap_cons, h x (List.mem_cons_self _ _), List.nil_append]
    exact ih (fun y hy => h y (List.mem_cons_of_mem _ hy))

/-- With no new type definitions, every seed is an `existing` seed. -/
theorem seedTypeMap_existing_of_noDefs (cfg : SchemaConfig) (c : Classified)
    (h : c.typeDefs = []) :
    ∀ p ∈ seedTypeMap cfg c, ∃ t : NamedType, p.2 = TypeSeed.existing t := by
  unfold seedTypeMap
  rw [h]
  simp only [List.foldl_nil]
  refine foldl_aset_inv (fun p => ∃ t : NamedType, p.2 = TypeSeed.existing t)
    NamedType.name TypeSeed.existing cfg.types (fun t => ⟨t, rfl⟩) [] ?_
  simp

theorem isNoopDoc_elim (c : Classified) (h : isNoopDoc c = true) :
    c.typeExtensionsMap = [] ∧ c.typeDefs = [] ∧ c.directiveDefs = [] ∧ c.schemaDef = none := by
  simp only [isNoopDoc, Bool.and_eq_true] at h
  obtain ⟨⟨⟨h1, h2⟩, h3⟩, h4⟩ := h
  exact ⟨List.isEmpty_iff.mp h1, List.isEmpty_iff.mp h2, List.isEmpty_iff.mp h3,
    Option.isNone_iff_eq_none.mp h4⟩

/-- A no-op document resolves no references at all. -/
theorem callRefs_noop (cfg : SchemaConfig) (c : Classified)
    (h : isNoopDoc c = true) : callRefs cfg c = [] := by
  obtain ⟨_, hdefs, hdirs, hsd⟩ := isNoopDoc_elim c h
  unfold callRefs
  rw [hdirs, hsd]
  have : seedRefs (seedTypeMap cfg c) = [] := by
    unfold seedRefs
    refine flatMap_nil_of _ _ ?_
    intro p hp
    obtain ⟨t, ht⟩ := seedTypeMap_existing_of_noDefs cfg c hdefs p hp
    rw [ht]
  simp [this]

/-- A successful registry forcing resolved every reference of `seedRefs`. -/
theorem buildTypeMapChecked_sound (cfg : SchemaConfig) (c : Classified)
    (m : List (String × NamedType)) (h : buildTypeMapChecked cfg c = .ok m) :
    ∀ x ∈ seedRefs (seedTypeMap cfg c), callResolvable cfg c x = true := by
  intro x hx
  unfold seedRefs at hx
  obtain ⟨p, hp, hx2⟩ := List.mem_flatMap.mp hx
  obtain ⟨t, ht⟩ := forceSeeds_all _ _ _ _ h p hp
  cases hs : p.2 with
  | existing u => rw [hs] at hx2; simp at hx2
  | std u => rw [hs] at hx2; simp at hx2
  | fresh td =>
    rw [hs] at hx2
    rw [hs] at ht
    exact buildType_sound _ _ _ _ ht x hx2

theorem seedTypeMap_lookup_def (cfg : SchemaConfig) (c : Classified) (n : String)
    (td : TypeDef) (h : lastDefNamed n c.typeDefs = some td) :
    alookup (seedTypeMap cfg c) n = some (seedOfDef td) := by
  unfold seedTypeMap
  rw [seed_defs_fold_lookup, h]

theorem lastDefNamed_name (n : String) :
    ∀ (l : List TypeDef) (td : TypeDef), lastDefNamed n l = some td → td.name = n := by
  intro l
  induction l with
  | nil => intro td h; simp [lastDefNamed] at h
  | cons td0 rest ih =>
    intro td h
    unfold lastDefNamed at h ih
    rw [List.foldl_cons,
      foldl_opt_override (fun td : TypeDef => td.name = n) (fun td => td) rest
        (if td0.name = n then some td0 else none)] at h
    cases hfold : rest.foldl (fun a td => if td.name = n then some td else a) none with
    | some td2 =>
      rw [hfold] at h
      injection h with h
      subst h
      exact ih _ hfold
    | none =>
      rw [hfold] at h
      by_cases h0 : td0.name = n
      · rw [if_pos h0] at h
        injection h with h
        subst h
        exact h0
      · rw [if_neg h0] at h
        exact absurd h (by simp)

theorem lastDefNamed_isSome (n : String) :
    ∀ (l : List TypeDef) (td : TypeDef), td ∈ l → td.name = n →
      ∃ td2, lastDefNamed n l = some td2 := by
  intro l
  induction l with
  | nil => intro td h; simp at h
  | cons td0 rest ih =>
    intro td h hn
    unfold lastDefNamed at ih ⊢
    rw [List.foldl_cons,
      foldl_opt_override (fun td : TypeDef => td.name = n) (fun td => td) rest
        (if td0.name = n then some td0 else none)]
    cases hfold : rest.foldl (fun a td => if td.name = n then some td else a) none with
    | some td2 => exact ⟨td2, rfl⟩
    | none =>
      rcases List.mem_cons.mp h with h1 | h1
      · subst h1
        rw [if_pos hn]
        exact ⟨td, rfl⟩
      · obtain ⟨td2, htd2⟩ := ih td h1 hn
        rw [htd2] at hfold
        exact absurd hfold (by simp)

theorem assembleConfig_rootOf (cfg : SchemaConfig) (c : Classified) (opts : Options)
    (m : List (String × NamedType)) (o : OpTypes) (nd : List DirectiveCfg) (op : OpKind) :
    (assembleConfig cfg c opts m o nd).rootOf op
      = mergeRoot (o.get op) ((cfg.rootOf op).bind (fun q => alookup m q.name)) := by
  cases op <;> rfl

/-- An option-overwriting fold that produced a hit found it in the list. -/
theorem foldl_opt_override_mem {α β : Type} (p : α → Prop) [DecidablePred p] (g : α → β) :
    ∀ (l : List α) (y : β),
      l.foldl (fun a x => if p x then some (g x) else a) none = some y →
      ∃ x ∈ l, p x ∧ g x = y := by
  intro l
  induction l with
  | nil => intro y h; simp at h
  | cons x0 l ih =>
    intro y h
    rw [List.foldl_cons,
      foldl_opt_override p g l (if p x0 then some (g x0) else none)] at h
    cases hfold : l.foldl (fun a x => if p x then some (g x) else a) none with
    | some y2 =>
      rw [hfold] at h
      injection h with h
      subst h
      obtain ⟨x, hx1, hx2, hx3⟩ := ih _ hfold
      exact ⟨x, List.mem_cons_of_mem _ hx1, hx2, hx3⟩
    | none =>
      rw [hfold] at h
      by_cases h0 : p x0
      · rw [if_pos h0] at h
        injection h with h
        exact ⟨x0, List.mem_cons_self _ _, h0, h⟩
      · rw [if_neg h0] at h
        exact absurd h (by simp)

theorem resolveOpTypes_some_from (m : List (String × NamedType)) (sd : SchemaDef)
    (o : OpTypes) (h : resolveOpTypes m (some sd) = .ok o) :
    ∃ acc2, getOperationTypesFrom m ⟨none, none, none⟩ sd.operationTypes = .ok acc2 := by
  simp only [resolveOpTypes, getOperationTypes, getOperationTypesNodes] at h
  cases h1 : getOperationTypesFrom m ⟨none, none, none⟩ sd.operationTypes with
  | error e => rw [h1] at h; exact absurd h (by simp)
  | ok acc2 => exact ⟨acc2, rfl⟩

theorem declaredOpName_mem (sd : SchemaDef) (op : OpKind) (nm : String)
    (h : declaredOpName sd op = some nm) :
    ∃ ot ∈ sd.operationTypes, ot.operation = op ∧ ot.typeName = nm := by
  unfold declaredOpName at h
  exact foldl_opt_override_mem (fun ot : OperationTypeDef => ot.operation = op)
    OperationTypeDef.typeName sd.operationTypes nm h

theorem isNoopDoc_false_of_defs (c : Classified) (h : c.typeDefs ≠ []) :
    isNoopDoc c = false := by
  unfold isNoopDoc
  cases hd : c.typeDefs with
  | nil => exact absurd hd h
  | cons td l => simp [List.isEmpty]

theorem lastDefNamed_ne_nil (n : String) (l : List TypeDef) (td : TypeDef)
    (h : lastDefNamed n l = some td) : l ≠ [] := by
  intro hl
  subst hl
  simp [lastDefNamed] at h

/-- Whether an extension call failed (no snapshot returned). -/
def isErrorResult {α : Type} : Except String α → Bool
| .error _ => true
| .ok _ => false

/-! ## Concrete inputs used by counterexamples and witnesses -/

def optsNone : Options := ⟨none, none⟩

def emptyConfig : SchemaConfig := ⟨none, none, none, none, [], [], [], none, false⟩

/-- An existing object type `T { a: String }`. -/
def objT : NamedType :=
  .object "T" none []
    [("a", ⟨.named "String", none, [], none, ⟨"a", none, [], .named "String", []⟩⟩)]

def cfgT : SchemaConfig := ⟨none, none, none, none, [objT], [], [], none, false⟩

/-- Two extension fragments for `T`, each declaring a field named `f` (the
first with type `String`, the second with type `Int`). -/
def docTwoExts : Document :=
  ⟨[.extensionD (.objectExt "T" [] [⟨"f", none, [], .named "String", []⟩]),
    .extensionD (.objectExt "T" [] [⟨"f", none, [], .named "Int", []⟩])]⟩

/-! ## C1 -/

/-- C1 (code bug evidence): a document carrying two extension fragments for
`T`, each declaring a field `f`, leaves the snapshot completely unchanged —
the call even takes the no-op shortcut, and `T` still exposes only its
original field `a`, so neither declaration of `f` (in particular not the
later one) is present.  The classification loop has no branch for extension
fragments, contradicting its own comments ("Collect the type definitions and
extensions found in the document", "If this document contains no new types,
extensions, or directives") and leaving the whole `typeExtensionsMap`
machinery dead. -/
theorem claim_C1_extension_fragments_dropped :
    extendSchemaImpl cfgT docTwoExts optsNone = .ok cfgT
    ∧ objT.fieldNames = ["a"]
    ∧ cfgT.types = [objT] :=
  ⟨rfl, rfl, rfl⟩

/-! ## C2 -/

/-- C2: extending any snapshot with an empty document (the only document
carrying no type definitions, no extension fragments, no directive
definitions and no schema definition) returns the original configuration.
The source branch returns the `schemaConfig` argument itself, which is the
strongest identity statement expressible in a value embedding: the
result is the very input term. -/
theorem claim_C2_noop_identity (cfg : SchemaConfig) (opts : Options) :
    extendSchemaImpl cfg ⟨[]⟩ opts = .ok cfg := rfl

/-! ## C4 -/

def cfgDescribed : SchemaConfig :=
  ⟨some "orig", none, none, none, [], [], [], none, false⟩

def docOneScalar : Document := ⟨[.typeD (.scalar "S" none [])]⟩

/-- C4 (counterexample): a document with one scalar definition and no schema
definition extends a snapshot whose description is `"orig"`; the result's
description is `none`, not the original — the assembly takes
`schemaDef?.description?.value` with no fallback to the original
description. -/
theorem claim_C4_counterexample :
    (extendSchemaImpl cfgDescribed docOneScalar optsNone).map SchemaConfig.description
      = .ok none
    ∧ cfgDescribed.description = some "orig"
    ∧ (classify docOneScalar.definitions).schemaDef = none :=
  ⟨rfl, rfl, rfl⟩

/-- C4 (amended): the resulting snapshot's description is taken from the
schema definition node when the document contains one (absent when that node
carries no description); otherwise it is absent — the original description is
dropped — except that a no-op document returns the original configuration
(description included) unchanged. -/
theorem claim_C4_description (cfg : SchemaConfig) (doc : Document) (opts : Options)
    (out : SchemaConfig) (h : extendSchemaImpl cfg doc opts = .ok out) :
    out.description
      = (if isNoopDoc (classify doc.definitions) then cfg.description
         else (classify doc.definitions).schemaDef.bind SchemaDef.description) := by
  by_cases hn : isNoopDoc (classify doc.definitions) = true
  · rw [extendSchemaImpl_noop cfg doc opts hn] at h
    injection h with h
    subst h
    simp [hn]
  · have hn' : isNoopDoc (classify doc.definitions) = false := by
      simpa using hn
    obtain ⟨m, o, nd, _, _, _, h4⟩ := extendSchemaImpl_ok_elim cfg doc opts out h hn'
    subst h4
    simp [assembleConfig, hn']

def docSchemaDesc : Document := ⟨[.schemaD ⟨some "sd", []⟩]⟩

def outSchemaDesc : SchemaConfig :=
  match extendSchemaImpl cfgDescribed docSchemaDesc optsNone with
  | .ok o => o
  | .error _ => cfgDescribed

theorem claim_C4_description_witness :
    outSchemaDesc.description
      = (if isNoopDoc (classify docSchemaDesc.definitions) then cfgDescribed.description
         else (classify docSchemaDesc.definitions).schemaDef.bind SchemaDef.description) :=
  claim_C4_description cfgDescribed docSchemaDesc optsNone outSchemaDesc rfl

/-! ## C10 -/

/-- C10: definitions that are neither a schema definition, a type definition
nor a directive definition — in particular all extension fragments — are
silently dropped by classification: the extension map stays the empty object,
every per-type extension lookup yields the empty list, and filtering such
definitions out of any document leaves the whole extension call's result
unchanged (so fragments can affect no rebuilt type's fields, variants,
interfaces, members or specified-by URL). -/
theorem claim_C10_extensions_ignored (cfg : SchemaConfig) (opts : Options)
    (defs : List Definition) :
    (classify defs).typeExtensionsMap = []
    ∧ (∀ n, extsOf (classify defs).typeExtensionsMap n = [])
    ∧ extendSchemaImpl cfg ⟨defs.filter keepDef⟩ opts = extendSchemaImpl cfg ⟨defs⟩ opts := by
  refine ⟨classify_extMap defs, ?_, ?_⟩
  · intro n
    rw [classify_extMap]
    rfl
  · simp only [extendSchemaImpl, classify_filter]

/-! ## C3 -/

/-- A sum-shaped data definition `data A = V { x: Unknown } | W` — the type
expression `Unknown` occurs in a variant's field. -/
def docSumUnknown : Document :=
  ⟨[.typeD (.data "A" none ⟨"V", none, [⟨"x", none, .named "Unknown", none, []⟩], []⟩
      [⟨"W", none, [], []⟩] [])]⟩

def outSumUnknown : SchemaConfig :=
  match extendSchemaImpl emptyConfig docSumUnknown optsNone with
  | .ok o => o
  | .error _ => emptyConfig

/-- C3 (counterexample): the document contains a type expression naming
`Unknown`, absent from both the builtin registry and the per-call registry,
yet the extension call succeeds — `buildEnumValueMap` never consults the
fields of sum-shaped variants, so the expression is never resolved and no
`UnknownType` error is raised. -/
theorem claim_C3_counterexample :
    "Unknown" ∈ allTypeExprNames docSumUnknown
    ∧ callResolvable emptyConfig (classify docSumUnknown.definitions) "Unknown" = false
    ∧ extendSchemaImpl emptyConfig docSumUnknown optsNone = .ok outSumUnknown :=
  ⟨by decide, by decide, rfl⟩

/-- C3 (amended): whenever a type expression that the call actually resolves
through `getNamedType` — one occurring in the last definition per non-builtin
name (outside the fields of sum-shaped data definitions), in a directive
definition's arguments, or in a declared operation type — names a type absent
from both the builtin registry and the per-call registry, the call returns an
error: no snapshot (partial or otherwise) is produced, and (the embedding
being pure) the original snapshot is untouched. -/
theorem claim_C3_unknown_type (cfg : SchemaConfig) (doc : Document) (opts : Options)
    (n : String) (h1 : n ∈ callRefs cfg (classify doc.definitions))
    (h2 : callResolvable cfg (classify doc.definitions) n = false) :
    isErrorResult (extendSchemaImpl cfg doc opts) = true := by
  cases hres : extendSchemaImpl cfg doc opts with
  | error e => rfl
  | ok out =>
    exfalso
    by_cases hn : isNoopDoc (classify doc.definitions) = true
    · rw [callRefs_noop cfg _ hn] at h1
      simp at h1
    · have hn' : isNoopDoc (classify doc.definitions) = false := by simpa using hn
      obtain ⟨m, o, nd, hm, ho, hd, _⟩ := extendSchemaImpl_ok_elim _ _ _ _ hres hn'
      rw [callRefs, List.mem_append, List.mem_append] at h1
      rcases h1 with (h1 | h1) | h1
      · have := buildTypeMapChecked_sound _ _ _ hm n h1
        rw [h2] at this
        exact absurd this (by simp)
      · obtain ⟨d, hd2, hx⟩ := List.mem_flatMap.mp h1
        have := buildDirectives_all _ _ _ hd d hd2 n hx
        rw [h2] at this
        exact absurd this (by simp)
      · cases hsd : (classify doc.definitions).schemaDef with
        | none => rw [hsd] at h1; simp at h1
        | some sd =>
          rw [hsd] at h1 ho
          obtain ⟨acc2, hof⟩ := resolveOpTypes_some_from m sd o ho
          obtain ⟨ot, hot, hn3⟩ := List.mem_map.mp h1
          obtain ⟨t, hval⟩ := getOperationTypesFrom_sound m _ _ _ hof ot hot
          rw [hn3] at hval
          rcases getNamedTypeVal_ok m n t hval with hstd | hm2
          · rw [callResolvable, hstd] at h2
            simp at h2
          · rw [alookup_isSome_iff, typeMap_keys _ _ _ hm, ← alookup_isSome_iff] at hm2
            rw [callResolvable, hm2] at h2
            simp at h2

/-- A record-shaped data definition `data B { x: Missing }` whose single field
names a type absent from both registries. -/
def docRecordMissing : Document :=
  ⟨[.typeD (.data "B" none ⟨"B", none, [⟨"x", none, .named "Missing", none, []⟩], []⟩ [] [])]⟩

theorem claim_C3_unknown_type_witness :
    isErrorResult (extendSchemaImpl emptyConfig docRecordMissing optsNone) = true :=
  claim_C3_unknown_type emptyConfig docRecordMissing optsNone "Missing"
    (by decide) (by decide)

/-! ## C5 -/

def docExtString : Document := ⟨[.extensionD (.scalarExt "String" [])]⟩

/-- C5 (counterexample): an extension fragment targeting the builtin name
`String`, against a snapshot that does not contain the builtin, yields a
snapshot that does not contain the `String` instance at all (the fragment is
dropped and the call is a no-op) — so "the resulting snapshot contains that
builtin type instance" fails for extension fragments. -/
theorem claim_C5_counterexample :
    extendSchemaImpl emptyConfig docExtString optsNone = .ok emptyConfig
    ∧ (alookup stdTypeMap "String").isSome = true
    ∧ emptyConfig.types = [] :=
  ⟨rfl, by decide, rfl⟩

/-- C5 (amended): a document *definition* whose name is a builtin or
introspection type name is never rebuilt: the registry maps that name to the
builtin instance itself, the resulting snapshot contains that instance, and no
error arises from the definition (its body is never resolved).  An extension
*fragment* targeting any name — builtin included — is dropped entirely:
inserting one anywhere in a document leaves the call's result unchanged, so
the builtin is untouched but is present only when the original snapshot (or a
definition) put it there. -/
theorem claim_C5_builtin_precedence (cfg : SchemaConfig) (doc : Document) (opts : Options)
    (out : SchemaConfig) (m : List (String × NamedType)) (td : TypeDef) (t : NamedType)
    (h : extendSchemaImpl cfg doc opts = .ok out)
    (hm : buildTypeMapChecked cfg (classify doc.definitions) = .ok m)
    (htd : td ∈ (classify doc.definitions).typeDefs)
    (hstd : alookup stdTypeMap td.name = some t) :
    alookup m td.name = some t ∧ t ∈ out.types
    ∧ (∀ d1 d2 ex, extendSchemaImpl cfg ⟨d1 ++ Definition.extensionD ex :: d2⟩ opts
        = extendSchemaImpl cfg ⟨d1 ++ d2⟩ opts) := by
  have hne : (classify doc.definitions).typeDefs ≠ [] := by
    intro hl
    rw [hl] at htd
    simp at htd
  have hn' := isNoopDoc_false_of_defs _ hne
  obtain ⟨m0, o, nd, hm0, ho, hd, h4⟩ := extendSchemaImpl_ok_elim _ _ _ _ h hn'
  rw [hm0] at hm
  injection hm with hmEq
  subst hmEq
  obtain ⟨td2, htd2⟩ := lastDefNamed_isSome td.name _ td htd rfl
  have hname2 := lastDefNamed_name td.name _ td2 htd2
  have hseed := seedTypeMap_lookup_def cfg _ td.name td2 htd2
  have hseedstd : seedOfDef td2 = .std t := by
    unfold seedOfDef
    rw [hname2, hstd]
  rw [hseedstd] at hseed
  have hF : forceSeeds (classify doc.definitions).typeExtensionsMap
      (callResolvable cfg (classify doc.definitions))
      (seedTypeMap cfg (classify doc.definitions)) = .ok m0 := hm0
  obtain ⟨t2, hf, hl⟩ := forceSeeds_lookup _ _ _ _ hF td.name _ hseed
  have ht2 : t2 = t := by
    simp only [forceSeed] at hf
    injection hf with hf
    exact hf.symm
  subst ht2
  refine ⟨hl, ?_, ?_⟩
  · rw [h4]
    exact alookup_mem_avalues _ _ _ hl
  · intro d1 d2 ex
    simp only [extendSchemaImpl, classify_insert_ext]

def docDefString : Document := ⟨[.typeD (.scalar "String" (some "mine") [])]⟩

def outDefString : SchemaConfig :=
  match extendSchemaImpl emptyConfig docDefString optsNone with
  | .ok o => o
  | .error _ => emptyConfig

def mDefString : List (String × NamedType) :=
  match buildTypeMapChecked emptyConfig (classify docDefString.definitions) with
  | .ok m => m
  | .error _ => []

theorem claim_C5_builtin_precedence_witness :
    alookup mDefString "String" = some (NamedType.stdScalar "String")
    ∧ NamedType.stdScalar "String" ∈ outDefString.types
    ∧ extendSchemaImpl emptyConfig ⟨[] ++ Definition.extensionD (.scalarExt "String" []) :: []⟩
        optsNone
      = extendSchemaImpl emptyConfig ⟨[] ++ []⟩ optsNone := by
  have h := claim_C5_builtin_precedence emptyConfig docDefString optsNone outDefString
    mDefString (.scalar "String" (some "mine") []) (.stdScalar "String")
    rfl rfl (by decide) (by decide)
  exact ⟨h.1, h.2.1, h.2.2 [] [] (.scalarExt "String" [])⟩

/-! ## C6 -/

/-- The root the spec predicts for one operation: the (last) declared
operation type resolved through builtins-then-registry when the schema
definition declares one, else the original root re-resolved through the new
registry. -/
def expectedRoot (cfg : SchemaConfig) (m : List (String × NamedType))
    (osd : Option SchemaDef) (op : OpKind) : Option NamedType :=
  match osd with
  | some sd =>
    (match declaredOpName sd op with
     | some nm => (getNamedTypeVal m nm).toOption
     | none => (cfg.rootOf op).bind (fun q => alookup m q.name))
  | none => (cfg.rootOf op).bind (fun q => alookup m q.name)

/-- C6: for every extension call, the resulting root of each operation is the
one declared for that operation on the document's schema definition (the last
such declaration, resolved through builtins-then-registry) when one is
declared; otherwise it is the original snapshot's root for that operation
re-resolved through the new registry (an override, not a merge).  A no-op
document returns the original configuration, roots included. -/
theorem claim_C6_root_override (cfg : SchemaConfig) (doc : Document) (opts : Options)
    (out : SchemaConfig) (m : List (String × NamedType))
    (h : extendSchemaImpl cfg doc opts = .ok out)
    (hm : buildTypeMapChecked cfg (classify doc.definitions) = .ok m) (op : OpKind) :
    (isNoopDoc (classify doc.definitions) = true → out.rootOf op = cfg.rootOf op)
    ∧ (isNoopDoc (classify doc.definitions) = false →
        out.rootOf op = expectedRoot cfg m (classify doc.definitions).schemaDef op) := by
  constructor
  · intro hn
    rw [extendSchemaImpl_noop _ _ _ hn] at h
    injection h with h
    subst h
    rfl
  · intro hn'
    obtain ⟨m0, o, nd, hm0, ho, hd, h4⟩ := extendSchemaImpl_ok_elim _ _ _ _ h hn'
    rw [hm0] at hm
    injection hm with hmEq
    subst hmEq
    subst h4
    rw [assembleConfig_rootOf]
    cases hsd : (classify doc.definitions).schemaDef with
    | none =>
      rw [hsd] at ho
      rw [resolveOpTypes_get_none _ _ ho op]
      rfl
    | some sd =>
      rw [hsd] at ho
      rw [resolveOpTypes_get_some _ _ _ ho op]
      have hexp : expectedRoot cfg m0 (some sd) op
          = (match declaredOpName sd op with
             | some nm => (getNamedTypeVal m0 nm).toOption
             | none => (cfg.rootOf op).bind (fun q => alookup m0 q.name)) := rfl
      rw [hexp]
      cases hdecl : declaredOpName sd op with
      | none => rfl
      | some nm =>
        obtain ⟨ot, hot, hop2, hnm⟩ := declaredOpName_mem sd op nm hdecl
        obtain ⟨acc2, hof⟩ := resolveOpTypes_some_from _ sd o ho
        obtain ⟨t, hval⟩ := getOperationTypesFrom_sound _ _ _ _ hof ot hot
        rw [hnm] at hval
        simp [mergeRoot, hval, Except.toOption]

def objQ : NamedType := .object "Q" none [] []

def objM : NamedType := .object "M" none [] []

def cfgRoots : SchemaConfig :=
  ⟨none, some objQ, none, none, [objQ, objM], [], [], none, false⟩

/-- A schema definition declaring only a mutation root. -/
def docRootOverride : Document := ⟨[.schemaD ⟨none, [⟨.mutation, "M"⟩]⟩]⟩

def outRoots : SchemaConfig :=
  match extendSchemaImpl cfgRoots docRootOverride optsNone with
  | .ok o => o
  | .error _ => cfgRoots

def mRoots : List (String × NamedType) :=
  match buildTypeMapChecked cfgRoots (classify docRootOverride.definitions) with
  | .ok m => m
  | .error _ => []

theorem claim_C6_root_override_witness :
    outRoots.rootOf OpKind.mutation = some objM
    ∧ outRoots.rootOf OpKind.query = some objQ := by
  have h1 := (claim_C6_root_override cfgRoots docRootOverride optsNone outRoots mRoots
    rfl rfl OpKind.mutation).2 (by decide)
  have h2 := (claim_C6_root_override cfgRoots docRootOverride optsNone outRoots mRoots
    rfl rfl OpKind.query).2 (by decide)
  exact ⟨h1.trans (by decide), h2.trans (by decide)⟩

/-! ## C7 -/

/-- C7: a data type definition with exactly one variant carrying at least one
field builds as a record exposing exactly that variant's fields as a field
map; any other variant arrangement builds as a sum exposing the variants as
nullary tags (the enum value map carries no field content, so fields on
non-record variants are ignored for the runtime shape). -/
theorem claim_C7_record_sum_classification (r : String → Bool)
    (em : List (String × List TypeExtension)) (n : String) (dsc : Option String)
    (v0 : VariantDef) (vrest : List VariantDef) (dirs : List DirectiveApp) (t : NamedType)
    (h : buildType r em (TypeDef.data n dsc v0 vrest dirs) = .ok t) :
    isDataRecordType t = recordShaped v0 vrest
    ∧ (recordShaped v0 vrest = true →
        ∀ x, x ∈ t.fieldNames ↔ x ∈ v0.fields.map InputValueDef.name)
    ∧ (recordShaped v0 vrest = false →
        t = .dataEnum n dsc (buildEnumValueMap [v0 :: vrest])
        ∧ ∀ x, x ∈ t.valueNames ↔ x ∈ (v0 :: vrest).map VariantDef.name) := by
  simp only [buildType] at h
  by_cases hrec : vrest.isEmpty && !v0.fields.isEmpty
  · rw [if_pos hrec] at h
    cases h1 : buildInputFieldMap r [v0 :: vrest] with
    | error e => rw [h1] at h; exact absurd h (by simp)
    | ok fm =>
      rw [h1] at h
      injection h with h
      subst h
      have harg : buildArgumentMapInto r [] v0.fields = .ok fm := by
        simp only [buildInputFieldMap, buildInputFieldMapInto, headFields] at h1
        cases h2 : buildArgumentMapInto r [] v0.fields with
        | error e => rw [h2] at h1; exact absurd h1 (by simp)
        | ok m2 =>
          rw [h2] at h1
          simp only [buildInputFieldMapInto] at h1
          injection h1 with h1
          rw [h1]
      have hrecS : recordShaped v0 vrest = true := hrec
      refine ⟨by simp [isDataRecordType, hrecS], ?_, ?_⟩
      · intro _ x
        have hk := buildArgumentMapInto_keys r v0.fields [] fm harg x
        simpa [NamedType.fieldNames, akeys] using hk
      · intro hfalse
        rw [hrecS] at hfalse
        exact absurd hfalse (by simp)
  · rw [if_neg hrec] at h
    injection h with h
    subst h
    have hfalse : recordShaped v0 vrest = false := by
      unfold recordShaped
      revert hrec
      cases vrest.isEmpty && !v0.fields.isEmpty <;> simp
    refine ⟨by simp [isDataRecordType, hfalse], ?_, ?_⟩
    · intro htrue
      rw [htrue] at hfalse
      exact absurd hfalse (by simp)
    · intro _
      refine ⟨rfl, ?_⟩
      intro x
      have hfold : buildEnumValueMap [v0 :: vrest]
          = (v0 :: vrest).foldl
              (fun m v => aset m v.name ⟨v.description, getDeprecationReason v.directives, v⟩)
              [] := by
        simp [buildEnumValueMap]
      have hk := enum_values_fold_keys (v0 :: vrest) [] x
      rw [← hfold] at hk
      simpa [NamedType.valueNames, akeys] using hk

/-- `data Hello { world: String }` — one variant, one field. -/
def helloRecordV0 : VariantDef :=
  ⟨"Hello", none, [⟨"world", none, .named "String", none, []⟩], []⟩

def helloRecordDef : TypeDef := .data "Hello" none helloRecordV0 [] []

def rTrue : String → Bool := fun _ => true

def tHelloRecord : NamedType :=
  match buildType rTrue [] helloRecordDef with
  | .ok t => t
  | .error _ => .scalar "" none none

/-- `data Hello = WORLD | OTHER` — two nullary variants. -/
def wVar : VariantDef := ⟨"WORLD", none, [], []⟩

def oVar : VariantDef := ⟨"OTHER", none, [], []⟩

def helloSumDef : TypeDef := .data "Hello" none wVar [oVar] []

def tHelloSum : NamedType :=
  match buildType rTrue [] helloSumDef with
  | .ok t => t
  | .error _ => .scalar "" none none

theorem claim_C7_record_sum_classification_witness :
    isDataRecordType tHelloRecord = true
    ∧ ("world" ∈ tHelloRecord.fieldNames
        ↔ "world" ∈ helloRecordV0.fields.map InputValueDef.name)
    ∧ tHelloSum = .dataEnum "Hello" none (buildEnumValueMap [[wVar, oVar]]) := by
  have hR := claim_C7_record_sum_classification rTrue [] "Hello" none helloRecordV0 [] []
    tHelloRecord rfl
  have hS := claim_C7_record_sum_classification rTrue [] "Hello" none wVar [oVar] []
    tHelloSum rfl
  exact ⟨hR.1.trans (by decide), hR.2.1 (by decide) "world", (hS.2.2 (by decide)).1⟩

/-! ## C8 -/

/-- C8: when a brand-new type definition shares a name with an existing
non-builtin type of the snapshot, the registry entry for that name is exactly
the fresh build of the (last) new definition — a pure function of the
definition node, independent of the existing type's content, with no merging
— and that freshly built type is what the resulting snapshot contains; the
call raises nothing on account of the collision. -/
theorem claim_C8_fresh_replaces (cfg : SchemaConfig) (doc : Document) (opts : Options)
    (out : SchemaConfig) (m : List (String × NamedType)) (n : String) (td : TypeDef)
    (t0 : NamedType)
    (h : extendSchemaImpl cfg doc opts = .ok out)
    (hm : buildTypeMapChecked cfg (classify doc.definitions) = .ok m)
    (hlast : lastDefNamed n (classify doc.definitions).typeDefs = some td)
    (hstd : alookup stdTypeMap n = none)
    (_ht0 : t0 ∈ cfg.types) (_hname : t0.name = n) :
    alookup m n
      = (buildType (callResolvable cfg (classify doc.definitions))
          (classify doc.definitions).typeExtensionsMap td).toOption
    ∧ ∀ t, alookup m n = some t → t ∈ out.types := by
  have hne := lastDefNamed_ne_nil n _ td hlast
  have hn' := isNoopDoc_false_of_defs _ hne
  obtain ⟨m0, o, nd, hm0, ho, hd, h4⟩ := extendSchemaImpl_ok_elim _ _ _ _ h hn'
  rw [hm0] at hm
  injection hm with hmEq
  subst hmEq
  have hseed := seedTypeMap_lookup_def cfg _ n td hlast
  have hfresh : seedOfDef td = .fresh td := by
    unfold seedOfDef
    rw [lastDefNamed_name n _ td hlast, hstd]
  rw [hfresh] at hseed
  have hF : forceSeeds (classify doc.definitions).typeExtensionsMap
      (callResolvable cfg (classify doc.definitions))
      (seedTypeMap cfg (classify doc.definitions)) = .ok m0 := hm0
  obtain ⟨t, hf, hl⟩ := forceSeeds_lookup _ _ _ _ hF n _ hseed
  have hb : buildType (callResolvable cfg (classify doc.definitions))
      (classify doc.definitions).typeExtensionsMap td = .ok t := hf
  constructor
  · rw [hl, hb]
    rfl
  · intro t2 ht2
    rw [h4]
    exact alookup_mem_avalues _ _ _ ht2

def objA : NamedType := .object "A" none [] []

def cfgA : SchemaConfig := ⟨none, none, none, none, [objA], [], [], none, false⟩

/-- A brand-new definition `data A = V` sharing the name of the existing
object type `A`. -/
def defAData : TypeDef := .data "A" none ⟨"V", none, [], []⟩ [] []

def docRedef : Document := ⟨[.typeD defAData]⟩

def outRedef : SchemaConfig :=
  match extendSchemaImpl cfgA docRedef optsNone with
  | .ok o => o
  | .error _ => cfgA

def mRedef : List (String × NamedType) :=
  match buildTypeMapChecked cfgA (classify docRedef.definitions) with
  | .ok m => m
  | .error _ => []

def tRedef : NamedType :=
  match alookup mRedef "A" with
  | some t => t
  | none => objA

theorem claim_C8_fresh_replaces_witness :
    alookup mRedef "A"
      = (buildType (callResolvable cfgA (classify docRedef.definitions))
          (classify docRedef.definitions).typeExtensionsMap defAData).toOption
    ∧ tRedef ∈ outRedef.types := by
  have h := claim_C8_fresh_replaces cfgA docRedef optsNone outRedef mRedef "A" defAData
    objA rfl rfl (by decide) (by decide) (by decide) (by decide)
  exact ⟨h.1, h.2 tRedef (by decide)⟩

/-! ## C9 -/

/-- C9: if the incoming snapshot's type names are distinct and the extension
call returns a snapshot, no two distinct named types of the result share a
name — the registry is keyed by name with overwriting assignment, and every
entry's value carries exactly its key as name. -/
theorem claim_C9_unique_names (cfg : SchemaConfig) (doc : Document) (opts : Options)
    (out : SchemaConfig)
    (hnodup : (cfg.types.map NamedType.name).Nodup)
    (h : extendSchemaImpl cfg doc opts = .ok out) :
    (out.types.map NamedType.name).Nodup := by
  by_cases hn : isNoopDoc (classify doc.definitions) = true
  · rw [extendSchemaImpl_noop _ _ _ hn] at h
    injection h with h
    subst h
    exact hnodup
  · have hn' : isNoopDoc (classify doc.definitions) = false := by simpa using hn
    obtain ⟨m, o, nd, hm, ho, hd, h4⟩ := extendSchemaImpl_ok_elim _ _ _ _ h hn'
    subst h4
    show ((avalues m).map NamedType.name).Nodup
    rw [avalues_map_name m (typeMap_name _ _ _ hm), typeMap_keys _ _ _ hm]
    exact seedTypeMap_nodup_keys cfg _

def docUniq : Document := ⟨[.typeD (.scalar "U" none [])]⟩

def outUniq : SchemaConfig :=
  match extendSchemaImpl cfgT docUniq optsNone with
  | .ok o => o
  | .error _ => cfgT

theorem claim_C9_unique_names_witness :
    (outUniq.types.map NamedType.name).Nodup :=
  claim_C9_unique_names cfgT docUniq optsNone outUniq (by decide) rfl

end IrisSchema
